import Mathlib

/-!
Bitboard position core of `board.cpp`

A shallow embedding of `src/Chess_Engine/engine/src/board.cpp`.

* A `Bitboard` (`uint64_t`) is a natural number (type `Nat`); every operation that can leave
  the 64-bit range in C++ carries an explicit `% 2 ^ 64`.  `|`, `&`, `^` of
  64-bit values stay 64-bit, so they carry none (`fits64_addPiece`,
  `fits64_removePiece`, `fits64_move_piece` below).
* `int` results are integers in the 32-bit two's-complement range; the
  conversions `uint64_t → int` and `int → uint64_t` are `toInt` and
  `toBitboard` (both modular, as in C++20).
* Squares are natural numbers.  The C++ shifts are undefined for a shift count
  outside `0..63`; the theorems only speak about squares `< 64`.
* `Position&` mutation is state passing: each mutator returns the new record.
* The key table `ZKEY` is not declared in the source file; it is a parameter
  of every function that reads it.
-/

namespace Board

/-- Colours, `enum Colour { WHITE = 0, BLACK = 1 }`. -/
inductive Colour where
  | WHITE
  | BLACK
  deriving DecidableEq, Repr

/-- Piece kinds, `enum Piece { PAWN = 0, KNIGHT, BISHOP, ROOK, QUEEN, KING }`. -/
inductive Piece where
  | PAWN
  | KNIGHT
  | BISHOP
  | ROOK
  | QUEEN
  | KING
  deriving DecidableEq, Repr

open Colour Piece

/-- The record `struct Position`: twelve placement masks, two occupancy masks,
the union mask, the side to move and the hash key. -/
structure Position where
  bb : Colour → Piece → Nat
  occ : Colour → Nat
  allOcc : Nat
  stm : Colour
  zobrist : Nat

/-- The key table `ZKEY[c][p][sq]`, read by the mutators and declared outside
the source file. -/
abbrev KeyTable := Colour → Piece → Nat → Nat

/-- Conversion `uint64_t → int` (32-bit `int`, modular). -/
def toInt (x : Nat) : Int :=
  if x % 2 ^ 32 < 2 ^ 31 then ((x % 2 ^ 32 : Nat) : Int) else ((x % 2 ^ 32 : Nat) : Int) - 2 ^ 32

/-- Conversion `int → uint64_t` (modular, i.e. sign extension). -/
def toBitboard (i : Int) : Nat :=
  (i % 2 ^ 64).toNat

/-- Bitwise complement `~m` of a 64-bit word. -/
def not64 (m : Nat) : Nat :=
  2 ^ 64 - 1 - m % 2 ^ 64

/-- The function `sq_bb`: `1ULL << square`. -/
def sq_bb (square : Nat) : Nat :=
  (1 <<< square) % 2 ^ 64

/-- The function `rank_of`: `square >> 3`. -/
def rank_of (square : Nat) : Nat :=
  square >>> 3

/-- The function `file_of`: `square & 7`. -/
def file_of (square : Nat) : Nat :=
  square &&& 7

/-- The function `make_sq`: `(rank << 3) | file`. -/
def make_sq (rank file : Nat) : Nat :=
  (rank <<< 3) ||| file

/-- The function `has`: `(bb & sq_bb(square)) != 0`, returned as an `int`. -/
def has (bb : Nat) (square : Nat) : Int :=
  if bb &&& sq_bb square ≠ 0 then 1 else 0

/-- The function `set`: `bb | sq_bb(square)`, returned through the declared
result type `int`. -/
def set (bb : Nat) (square : Nat) : Int :=
  toInt (bb ||| sq_bb square)

/-- The function `clear`: `bb & ~sq_bb(square)`, returned through the declared
result type `int`. -/
def clear (bb : Nat) (square : Nat) : Int :=
  toInt (bb &&& not64 (sq_bb square))

/-- The library function `std::popcount` on a `w`-bit word. -/
def popcountW : Nat → Nat → Nat
  | 0, _ => 0
  | w + 1, x => x % 2 + popcountW w (x / 2)

/-- The function `popcount`. -/
def popcount (bb : Nat) : Nat :=
  popcountW 64 bb

/-- The library function `std::countr_zero` on a `w`-bit word: the number of
consecutive zero bits starting from bit 0 (`w` for the zero word). -/
def countr_zero : Nat → Nat → Nat
  | 0, _ => 0
  | w + 1, x => if x % 2 = 1 then 0 else 1 + countr_zero w (x / 2)

/-- The function `lsb`. -/
def lsb (bb : Nat) : Nat :=
  countr_zero 64 bb

/-- The function `pop_lsb`: returns `lsb(bb)` together with the updated word
`bb & (bb - 1)`; the subtraction wraps at 64 bits. -/
def pop_lsb (bb : Nat) : Nat × Nat :=
  (lsb bb, bb &&& ((bb + 2 ^ 64 - 1) % 2 ^ 64))

/-- The function `file_mask`: `0x0101010101010101ULL << file`. -/
def file_mask (file : Nat) : Nat :=
  (0x0101010101010101 <<< file) % 2 ^ 64

/-- The function `rank_mask`: `0xFFULL << (rank * 8)`. -/
def rank_mask (rank : Nat) : Nat :=
  (0xFF <<< (rank * 8)) % 2 ^ 64

/-- The constant `dark_squares`. -/
def dark_squares : Nat := 0xAA55AA55AA55AA55

/-- The constant `light_squares = ~dark_squares`. -/
def light_squares : Nat := not64 dark_squares

/-- The function `addPiece`. -/
def addPiece (ZKEY : KeyTable) (pos : Position) (c : Colour) (p : Piece) (sq : Nat) : Position :=
  let m := (1 <<< sq) % 2 ^ 64
  { pos with
    bb := fun c' p' => if c' = c ∧ p' = p then pos.bb c p ||| m else pos.bb c' p'
    occ := fun c' => if c' = c then pos.occ c ||| m else pos.occ c'
    allOcc := pos.allOcc ||| m
    zobrist := pos.zobrist ^^^ ZKEY c p sq }

/-- The function `removePiece`. -/
def removePiece (ZKEY : KeyTable) (pos : Position) (c : Colour) (p : Piece) (sq : Nat) : Position :=
  let m := (1 <<< sq) % 2 ^ 64
  { pos with
    bb := fun c' p' => if c' = c ∧ p' = p then pos.bb c p &&& not64 m else pos.bb c' p'
    occ := fun c' => if c' = c then pos.occ c &&& not64 m else pos.occ c'
    allOcc := pos.allOcc &&& not64 m
    zobrist := pos.zobrist ^^^ ZKEY c p sq }

/-- The function `isOccupied`. -/
def isOccupied (pos : Position) (sq : Nat) : Bool :=
  pos.allOcc &&& ((1 <<< sq) % 2 ^ 64) != 0

/-- The function `move_piece` (`src` and `dst` are the C++ `from` and `to`). -/
def move_piece (ZKEY : KeyTable) (pos : Position) (c : Colour) (p : Piece) (src dst : Nat) :
    Position :=
  let m := sq_bb src ||| sq_bb dst
  { pos with
    bb := fun c' p' => if c' = c ∧ p' = p then pos.bb c p ^^^ m else pos.bb c' p'
    occ := fun c' => if c' = c then pos.occ c ^^^ m else pos.occ c'
    allOcc := pos.allOcc ^^^ m
    zobrist := pos.zobrist ^^^ (ZKEY c p src ^^^ ZKEY c p dst) }

/-- The function template `for_each`: `while (bb) f(pop_lsb(bb));`.  The effect
of the visitor `f` is a state transformer on `σ`. -/
def for_each {σ : Type} (bb : Nat) (f : Nat → σ → σ) (st : σ) : σ :=
  if h : bb = 0 then st
  else for_each (pop_lsb bb).2 f (f (pop_lsb bb).1 st)
termination_by bb
decreasing_by
  simp only [pop_lsb]
  have h1 : bb &&& ((bb + 2 ^ 64 - 1) % 2 ^ 64) ≤ (bb + 2 ^ 64 - 1) % 2 ^ 64 := Nat.and_le_right
  by_cases hb : bb < 2 ^ 64
  · have h2 : (bb + 2 ^ 64 - 1) % 2 ^ 64 = bb - 1 := by omega
    omega
  · have := Nat.mod_lt (bb + 2 ^ 64 - 1) (show 0 < 2 ^ 64 by norm_num)
    omega

/-- The squares handed to the visitor by `for_each`, in call order. -/
def visited (bb : Nat) : List Nat :=
  for_each bb (fun sq acc => acc ++ [sq]) []

/-! ### Specification-side vocabulary -/

/-- The empty position: every mask and the hash are zero. -/
def emptyPosition (stm : Colour) : Position :=
  { bb := fun _ _ => 0, occ := fun _ => 0, allOcc := 0, stm := stm, zobrist := 0 }

/-- Every mask of a position is a 64-bit word (true of every C++ `Position`
value). -/
def fits64 (pos : Position) : Prop :=
  (∀ c p, pos.bb c p < 2 ^ 64) ∧ (∀ c, pos.occ c < 2 ^ 64) ∧ pos.allOcc < 2 ^ 64

/-- No placement mask has bit `s` set: the square holds no piece. -/
def whollyEmpty (pos : Position) (s : Nat) : Prop :=
  ∀ c p, (pos.bb c p).testBit s = false

/-- The bitwise OR of the six placement masks of colour `c`. -/
def unionOf (pos : Position) (c : Colour) : Nat :=
  pos.bb c PAWN ||| pos.bb c KNIGHT ||| pos.bb c BISHOP ||| pos.bb c ROOK |||
    pos.bb c QUEEN ||| pos.bb c KING

/-- Union invariant: each `occ[c]` is the OR of the six `bb[c][*]`, and
`allOcc` is `occ[WHITE] | occ[BLACK]`. -/
def UnionInv (pos : Position) : Prop :=
  (∀ c, pos.occ c = unionOf pos c) ∧ pos.allOcc = pos.occ WHITE ||| pos.occ BLACK

/-- Disjointness invariant: a square is in at most one of the twelve
placement masks. -/
def DisjointInv (pos : Position) : Prop :=
  ∀ s c₁ p₁ c₂ p₂, (pos.bb c₁ p₁).testBit s = true → (pos.bb c₂ p₂).testBit s = true →
    c₁ = c₂ ∧ p₁ = p₂

/-- XOR of `key sq` over the squares `sq < n` whose bit is set in `b`. -/
def xorKeys (key : Nat → Nat) (b : Nat) : Nat → Nat
  | 0 => 0
  | n + 1 => xorKeys key b n ^^^ (if b.testBit n then key n else 0)

/-- XOR of the keys of all occupied squares of one (colour, piece) mask. -/
def pieceHash (ZKEY : KeyTable) (pos : Position) (c : Colour) (p : Piece) : Nat :=
  xorKeys (ZKEY c p) (pos.bb c p) 64

/-- XOR of the keys of all occupied (piece, square) pairs of one colour. -/
def colourHash (ZKEY : KeyTable) (pos : Position) (c : Colour) : Nat :=
  pieceHash ZKEY pos c PAWN ^^^ pieceHash ZKEY pos c KNIGHT ^^^ pieceHash ZKEY pos c BISHOP ^^^
    pieceHash ZKEY pos c ROOK ^^^ pieceHash ZKEY pos c QUEEN ^^^ pieceHash ZKEY pos c KING

/-- XOR of `ZKEY[c][p][s]` over exactly the triples with bit `s` set in
`bb[c][p]`. -/
def hashOf (ZKEY : KeyTable) (pos : Position) : Nat :=
  colourHash ZKEY pos WHITE ^^^ colourHash ZKEY pos BLACK

/-- Positions reachable from an empty position by calls that respect the
documented preconditions: `addPiece` onto a wholly empty square, `removePiece`
of a piece that is present, `move_piece` from a square holding the piece to a
wholly empty square; all squares in `0..63`. -/
inductive Reachable (ZKEY : KeyTable) : Position → Prop where
  | empty (stm : Colour) : Reachable ZKEY (emptyPosition stm)
  | add {pos : Position} (c : Colour) (p : Piece) (s : Nat) :
      Reachable ZKEY pos → s < 64 → whollyEmpty pos s →
      Reachable ZKEY (addPiece ZKEY pos c p s)
  | remove {pos : Position} (c : Colour) (p : Piece) (s : Nat) :
      Reachable ZKEY pos → s < 64 → (pos.bb c p).testBit s = true →
      Reachable ZKEY (removePiece ZKEY pos c p s)
  | move {pos : Position} (c : Colour) (p : Piece) (src dst : Nat) :
      Reachable ZKEY pos → src < 64 → dst < 64 → (pos.bb c p).testBit src = true →
      whollyEmpty pos dst → Reachable ZKEY (move_piece ZKEY pos c p src dst)

/-- The set bits of a 64-bit word, in increasing order. -/
def setBits (bb : Nat) : List Nat :=
  (List.range 64).filter (fun i => bb.testBit i)

/-- Numeric value of a colour in the C++ enumeration. -/
def Colour.toNat : Colour → Nat
  | WHITE => 0
  | BLACK => 1

/-- Numeric value of a piece kind in the C++ enumeration. -/
def Piece.toNat : Piece → Nat
  | PAWN => 0
  | KNIGHT => 1
  | BISHOP => 2
  | ROOK => 3
  | QUEEN => 4
  | KING => 5

/-- A fixed key table used in worked examples. -/
def sampleKeys : KeyTable :=
  fun c p s => (c.toNat * 6 + p.toNat) * 64 + s + 1

/-- Worked example: white rooks on squares 0 and 7. -/
def rooksPosition : Position :=
  addPiece sampleKeys (addPiece sampleKeys (emptyPosition WHITE) WHITE ROOK 0) WHITE ROOK 7

/-- Proof device, not a source function: flip bit `s` in `bb[c][p]`, `occ[c]`
and `allOcc`, and XOR `ZKEY[c][p][s]` into the hash.  When their preconditions
hold, `addPiece` and `removePiece` perform this edit and `move_piece` performs
two of them (see the `_eq_toggle` lemmas). -/
def toggleSquare (ZKEY : KeyTable) (pos : Position) (c : Colour) (p : Piece) (s : Nat) :
    Position :=
  { pos with
    bb := fun c' p' => if c' = c ∧ p' = p then pos.bb c p ^^^ 2 ^ s else pos.bb c' p'
    occ := fun c' => if c' = c then pos.occ c ^^^ 2 ^ s else pos.occ c'
    allOcc := pos.allOcc ^^^ 2 ^ s
    zobrist := pos.zobrist ^^^ ZKEY c p s }

/-- The four structural properties together: 64-bit masks, union invariant,
disjointness invariant, and hash consistency with respect to `ZKEY`. -/
def Consistent (ZKEY : KeyTable) (pos : Position) : Prop :=
  fits64 pos ∧ UnionInv pos ∧ DisjointInv pos ∧ pos.zobrist = hashOf ZKEY pos

/-- The loop of `for_each` with a ghost log: `log` collects, in call order,
every mask on which `pop_lsb` is invoked.  The first component is computed
exactly as in `for_each`. -/
def for_each_logged {σ : Type} (bb : Nat) (f : Nat → σ → σ) (st : σ) (log : List Nat) :
    σ × List Nat :=
  if h : bb = 0 then (st, log)
  else for_each_logged (pop_lsb bb).2 f (f (pop_lsb bb).1 st) (log ++ [bb])
termination_by bb
decreasing_by
  simp only [pop_lsb]
  have h1 : bb &&& ((bb + 2 ^ 64 - 1) % 2 ^ 64) ≤ (bb + 2 ^ 64 - 1) % 2 ^ 64 := Nat.and_le_right
  by_cases hb : bb < 2 ^ 64
  · have h2 : (bb + 2 ^ 64 - 1) % 2 ^ 64 = bb - 1 := by omega
    omega
  · have := Nat.mod_lt (bb + 2 ^ 64 - 1) (show 0 < 2 ^ 64 by norm_num)
    omega

/-- Worked example: a white rook on square 0 facing a black knight on
square 8. -/
def capturePosition : Position :=
  addPiece sampleKeys (addPiece sampleKeys (emptyPosition WHITE) WHITE ROOK 0) BLACK KNIGHT 8

/-! ### Bit-level facts -/

theorem mask_eq_two_pow {s : Nat} (h : s < 64) : (1 <<< s) % 2 ^ 64 = 2 ^ s := by
  rw [Nat.one_shiftLeft]
  exact Nat.mod_eq_of_lt (Nat.pow_lt_pow_right (by norm_num) h)

theorem two_pow_lt_word {s : Nat} (h : s < 64) : 2 ^ s < 2 ^ 64 :=
  Nat.pow_lt_pow_right (by norm_num) h

theorem sq_bb_eq_two_pow {s : Nat} (h : s < 64) : sq_bb s = 2 ^ s :=
  mask_eq_two_pow h

theorem testBit_not64_two_pow {s : Nat} (h : s < 64) (i : Nat) :
    (not64 (2 ^ s)).testBit i = (decide (i < 64) && !decide (s = i)) := by
  have h1 : 2 ^ s < 2 ^ 64 := two_pow_lt_word h
  unfold not64
  rw [Nat.mod_eq_of_lt h1, Nat.sub_sub, Nat.add_comm 1, Nat.testBit_two_pow_sub_succ h1,
    Nat.testBit_two_pow]

theorem testBit_of_lt_word {x : Nat} (h : x < 2 ^ 64) {i : Nat} (hi : 64 ≤ i) :
    x.testBit i = false :=
  Nat.testBit_lt_two_pow (lt_of_lt_of_le h (Nat.pow_le_pow_right (by norm_num) hi))

/-- Setting a bit and then masking it out restores a 64-bit word whose bit was clear. -/
theorem or_and_not64 {x s : Nat} (hs : s < 64) (hx : x < 2 ^ 64) (hb : x.testBit s = false) :
    (x ||| 2 ^ s) &&& not64 (2 ^ s) = x := by
  apply Nat.eq_of_testBit_eq
  intro i
  rw [Nat.testBit_and, Nat.testBit_or, testBit_not64_two_pow hs, Nat.testBit_two_pow]
  by_cases hi : i < 64
  · by_cases hsi : s = i
    · subst hsi; simp [hb]
    · simp [hi, hsi]
  · simp [hi, testBit_of_lt_word hx (Nat.le_of_not_lt hi)]

theorem Position.eq_of_fields {a b : Position} (h1 : ∀ c p, a.bb c p = b.bb c p)
    (h2 : ∀ c, a.occ c = b.occ c) (h3 : a.allOcc = b.allOcc) (h4 : a.stm = b.stm)
    (h5 : a.zobrist = b.zobrist) : a = b := by
  cases a
  cases b
  simp only [Position.mk.injEq]
  exact ⟨funext fun c => funext fun p => h1 c p, funext h2, h3, h4, h5⟩

theorem xor_xor_cancel (x m : Nat) : x ^^^ m ^^^ m = x := by
  rw [Nat.xor_assoc, Nat.xor_self, Nat.xor_zero]

/-! ### The mutators keep every mask a 64-bit word -/

theorem mask_lt_word (sq : Nat) : (1 <<< sq) % 2 ^ 64 < 2 ^ 64 :=
  Nat.mod_lt _ (by norm_num)

theorem fits64_addPiece (ZKEY : KeyTable) {pos : Position} (hF : fits64 pos) (c : Colour)
    (p : Piece) (sq : Nat) : fits64 (addPiece ZKEY pos c p sq) := by
  refine ⟨fun c' p' => ?_, fun c' => ?_, ?_⟩
  · simp only [addPiece]
    split
    · exact Nat.or_lt_two_pow (hF.1 c p) (mask_lt_word sq)
    · exact hF.1 c' p'
  · simp only [addPiece]
    split
    · exact Nat.or_lt_two_pow (hF.2.1 c) (mask_lt_word sq)
    · exact hF.2.1 c'
  · exact Nat.or_lt_two_pow hF.2.2 (mask_lt_word sq)

theorem fits64_removePiece (ZKEY : KeyTable) {pos : Position} (hF : fits64 pos) (c : Colour)
    (p : Piece) (sq : Nat) : fits64 (removePiece ZKEY pos c p sq) := by
  refine ⟨fun c' p' => ?_, fun c' => ?_, ?_⟩
  · simp only [removePiece]
    split
    · exact lt_of_le_of_lt Nat.and_le_left (hF.1 c p)
    · exact hF.1 c' p'
  · simp only [removePiece]
    split
    · exact lt_of_le_of_lt Nat.and_le_left (hF.2.1 c)
    · exact hF.2.1 c'
  · exact lt_of_le_of_lt Nat.and_le_left hF.2.2

theorem fits64_move_piece (ZKEY : KeyTable) {pos : Position} (hF : fits64 pos) (c : Colour)
    (p : Piece) (src dst : Nat) : fits64 (move_piece ZKEY pos c p src dst) := by
  have hm : sq_bb src ||| sq_bb dst < 2 ^ 64 :=
    Nat.or_lt_two_pow (mask_lt_word src) (mask_lt_word dst)
  refine ⟨fun c' p' => ?_, fun c' => ?_, ?_⟩
  · simp only [move_piece]
    split
    · exact Nat.xor_lt_two_pow (hF.1 c p) hm
    · exact hF.1 c' p'
  · simp only [move_piece]
    split
    · exact Nat.xor_lt_two_pow (hF.2.1 c) hm
    · exact hF.2.1 c'
  · exact Nat.xor_lt_two_pow hF.2.2 hm

/-! ### Inverse laws -/

/-- If bit `s` is clear in `bb[c][p]`, in `occ[c]` and in `allOcc`, then
`removePiece` after `addPiece` with the same arguments restores every field of
the position, the hash included. -/
theorem add_remove_inverse_of_clear (ZKEY : KeyTable) (pos : Position) (c : Colour) (p : Piece)
    (s : Nat) (hs : s < 64) (hfit : fits64 pos) (hbb : (pos.bb c p).testBit s = false)
    (hocc : (pos.occ c).testBit s = false) (hall : pos.allOcc.testBit s = false) :
    removePiece ZKEY (addPiece ZKEY pos c p s) c p s = pos := by
  obtain ⟨f1, f2, f3⟩ := hfit
  apply Position.eq_of_fields
  · intro c' p'
    simp only [removePiece, addPiece, mask_eq_two_pow hs]
    by_cases h : c' = c ∧ p' = p
    · obtain ⟨rfl, rfl⟩ := h
      simp only [and_self, if_true]
      exact or_and_not64 hs (f1 _ _) hbb
    · simp only [h, if_false]
  · intro c'
    simp only [removePiece, addPiece, mask_eq_two_pow hs]
    by_cases h : c' = c
    · subst h
      simp only [if_true]
      exact or_and_not64 hs (f2 _) hocc
    · simp only [h, if_false]
  · simp only [removePiece, addPiece, mask_eq_two_pow hs]
    exact or_and_not64 hs f3 hall
  · rfl
  · simp only [removePiece, addPiece]
    exact xor_xor_cancel _ _

/-- C5: `move_piece(c, p, b, a)` after `move_piece(c, p, a, b)` restores every
field of the position, the hash included. -/
theorem move_piece_inverse (ZKEY : KeyTable) (pos : Position) (c : Colour) (p : Piece)
    (a b : Nat) (_ha : a < 64) (_hb : b < 64) :
    move_piece ZKEY (move_piece ZKEY pos c p a b) c p b a = pos := by
  apply Position.eq_of_fields
  · intro c' p'
    simp only [move_piece]
    by_cases h : c' = c ∧ p' = p
    · obtain ⟨rfl, rfl⟩ := h
      simp only [and_self, if_true]
      rw [Nat.or_comm (sq_bb b)]
      exact xor_xor_cancel _ _
    · simp only [h, if_false]
  · intro c'
    simp only [move_piece]
    by_cases h : c' = c
    · subst h
      simp only [if_true]
      rw [Nat.or_comm (sq_bb b)]
      exact xor_xor_cancel _ _
    · simp only [h, if_false]
  · simp only [move_piece]
    rw [Nat.or_comm (sq_bb b)]
    exact xor_xor_cancel _ _
  · rfl
  · simp only [move_piece]
    rw [Nat.xor_comm (ZKEY c p b)]
    exact xor_xor_cancel _ _

/-- Worked instance of `move_piece_inverse`: the rook of `rooksPosition` goes
from square 0 to square 8 and back. -/
theorem move_piece_inverse_witness :
    move_piece sampleKeys (move_piece sampleKeys rooksPosition WHITE ROOK 0 8) WHITE ROOK 8 0
      = rooksPosition :=
  move_piece_inverse sampleKeys rooksPosition WHITE ROOK 0 8 (by decide) (by decide)

/-! ### Postconditions of the mutators -/

/-- C7: `addPiece(c, p, s)` sets bit `s` (and changes no other bit) in
`bb[c][p]`, `occ[c]` and `allOcc`, replaces `zobrist` by
`zobrist XOR ZKEY[c][p][s]`, and leaves the other eleven placement masks, the
other colour's occupancy and `stm` unchanged.  Scenario: from the empty
position, adding white rooks on squares 0 and 7 gives
`bb[WHITE][ROOK] = occ[WHITE] = allOcc = 0b10000001` and
`zobrist = ZKEY[WHITE][ROOK][0] XOR ZKEY[WHITE][ROOK][7]`. -/
theorem addPiece_post_frame (ZKEY : KeyTable) (pos : Position) (c : Colour) (p : Piece) (s : Nat)
    (hs : s < 64) :
    ((addPiece ZKEY pos c p s).bb c p = pos.bb c p ||| 2 ^ s ∧
      (addPiece ZKEY pos c p s).occ c = pos.occ c ||| 2 ^ s ∧
      (addPiece ZKEY pos c p s).allOcc = pos.allOcc ||| 2 ^ s) ∧
    ((∀ i, ((addPiece ZKEY pos c p s).bb c p).testBit i
        = (decide (i = s) || (pos.bb c p).testBit i)) ∧
      (∀ i, ((addPiece ZKEY pos c p s).occ c).testBit i
        = (decide (i = s) || (pos.occ c).testBit i)) ∧
      (∀ i, (addPiece ZKEY pos c p s).allOcc.testBit i
        = (decide (i = s) || pos.allOcc.testBit i))) ∧
    (addPiece ZKEY pos c p s).zobrist = pos.zobrist ^^^ ZKEY c p s ∧
    (∀ c' p', ¬ (c' = c ∧ p' = p) → (addPiece ZKEY pos c p s).bb c' p' = pos.bb c' p') ∧
    (∀ c', c' ≠ c → (addPiece ZKEY pos c p s).occ c' = pos.occ c') ∧
    (addPiece ZKEY pos c p s).stm = pos.stm ∧
    (∀ stm : Colour,
      (addPiece ZKEY (addPiece ZKEY (emptyPosition stm) WHITE ROOK 0) WHITE ROOK 7).bb WHITE ROOK
          = 0b10000001 ∧
      (addPiece ZKEY (addPiece ZKEY (emptyPosition stm) WHITE ROOK 0) WHITE ROOK 7).occ WHITE
          = 0b10000001 ∧
      (addPiece ZKEY (addPiece ZKEY (emptyPosition stm) WHITE ROOK 0) WHITE ROOK 7).allOcc
          = 0b10000001 ∧
      (addPiece ZKEY (addPiece ZKEY (emptyPosition stm) WHITE ROOK 0) WHITE ROOK 7).zobrist
          = ZKEY WHITE ROOK 0 ^^^ ZKEY WHITE ROOK 7) := by
  have hbit : ∀ x i : Nat, (x ||| 2 ^ s).testBit i = (decide (i = s) || x.testBit i) := by
    intro x i
    rw [Nat.testBit_or, Nat.testBit_two_pow, Bool.or_comm]
    by_cases h : s = i
    · simp [h]
    · have h' : ¬ i = s := fun e => h e.symm
      simp [h, h']
  have e1 : (addPiece ZKEY pos c p s).bb c p = pos.bb c p ||| 2 ^ s := by
    simp only [addPiece, mask_eq_two_pow hs, and_self, if_true]
  have e2 : (addPiece ZKEY pos c p s).occ c = pos.occ c ||| 2 ^ s := by
    simp only [addPiece, mask_eq_two_pow hs, if_true]
  have e3 : (addPiece ZKEY pos c p s).allOcc = pos.allOcc ||| 2 ^ s := by
    simp only [addPiece, mask_eq_two_pow hs]
  refine ⟨⟨e1, e2, e3⟩, ⟨?_, ?_, ?_⟩, rfl, ?_, ?_, rfl, ?_⟩
  · intro i; rw [e1]; exact hbit _ i
  · intro i; rw [e2]; exact hbit _ i
  · intro i; rw [e3]; exact hbit _ i
  · intro c' p' h
    simp only [addPiece, h, if_false]
  · intro c' h
    simp only [addPiece, h, if_false]
  · intro stm
    refine ⟨?_, ?_, ?_, ?_⟩
    · simp only [addPiece, emptyPosition, and_self, if_true]; decide
    · simp only [addPiece, emptyPosition, if_true]; decide
    · simp only [addPiece, emptyPosition]; decide
    · simp only [addPiece, emptyPosition, Nat.zero_xor]

/-- Worked instance of `addPiece_post_frame`: a black knight added on square 57
of `rooksPosition`. -/
theorem addPiece_post_frame_witness :
    (addPiece sampleKeys rooksPosition BLACK KNIGHT 57).bb BLACK KNIGHT = 2 ^ 57 ∧
    (addPiece sampleKeys rooksPosition BLACK KNIGHT 57).allOcc = 129 ||| 2 ^ 57 ∧
    (addPiece sampleKeys rooksPosition BLACK KNIGHT 57).bb WHITE ROOK = 129 := by
  have h := addPiece_post_frame sampleKeys rooksPosition BLACK KNIGHT 57 (by decide)
  refine ⟨h.1.1.trans (by decide), h.1.2.2.trans (by decide), ?_⟩
  exact (h.2.2.2.1 WHITE ROOK (by decide)).trans (by decide)

/-- C8: on a position satisfying the union invariant, with bit `src` set in
`bb[c][p]` and bit `dst` clear in `allOcc`, `move_piece(c, p, src, dst)` yields
`bb[c][p]`, `occ[c]` and `allOcc` equal to their old values with bit `src`
cleared and bit `dst` set, `zobrist` equal to the old value
`XOR ZKEY[c][p][src] XOR ZKEY[c][p][dst]`, and every other field unchanged.
Scenario: with white rooks on squares 0 and 7, `move_piece(WHITE, ROOK, 0, 8)`
gives `bb[WHITE][ROOK]` with exactly bits 7 and 8 set. -/
theorem move_piece_relocates (ZKEY : KeyTable) (pos : Position) (c : Colour) (p : Piece)
    (src dst : Nat) (hsrc : src < 64) (hdst : dst < 64) (hU : UnionInv pos)
    (hfrom : (pos.bb c p).testBit src = true) (hto : pos.allOcc.testBit dst = false) :
    ((∀ i, ((move_piece ZKEY pos c p src dst).bb c p).testBit i
        = (!decide (i = src) && (decide (i = dst) || (pos.bb c p).testBit i))) ∧
      (∀ i, ((move_piece ZKEY pos c p src dst).occ c).testBit i
        = (!decide (i = src) && (decide (i = dst) || (pos.occ c).testBit i))) ∧
      (∀ i, (move_piece ZKEY pos c p src dst).allOcc.testBit i
        = (!decide (i = src) && (decide (i = dst) || pos.allOcc.testBit i)))) ∧
    (move_piece ZKEY pos c p src dst).zobrist
      = pos.zobrist ^^^ ZKEY c p src ^^^ ZKEY c p dst ∧
    (∀ c' p', ¬ (c' = c ∧ p' = p) → (move_piece ZKEY pos c p src dst).bb c' p' = pos.bb c' p') ∧
    (∀ c', c' ≠ c → (move_piece ZKEY pos c p src dst).occ c' = pos.occ c') ∧
    (move_piece ZKEY pos c p src dst).stm = pos.stm ∧
    (∀ stm : Colour,
      (move_piece ZKEY
        (addPiece ZKEY (addPiece ZKEY (emptyPosition stm) WHITE ROOK 0) WHITE ROOK 7)
        WHITE ROOK 0 8).bb WHITE ROOK = 2 ^ 7 ||| 2 ^ 8) := by
  obtain ⟨hocc, hall⟩ := hU
  -- the piece is visible in both occupancy masks, the target in none
  have hsrc_occ : (pos.occ c).testBit src = true := by
    rw [hocc c]
    unfold unionOf
    cases p <;> simp [Nat.testBit_or, hfrom]
  have hsrc_all : pos.allOcc.testBit src = true := by
    rw [hall]
    cases c <;> simp [Nat.testBit_or, hsrc_occ]
  have hdst_occ : (pos.occ c).testBit dst = false := by
    rw [hall, Nat.testBit_or] at hto
    cases c <;> simp_all
  have hdst_bb : (pos.bb c p).testBit dst = false := by
    rw [hocc c] at hdst_occ
    unfold unionOf at hdst_occ
    simp only [Nat.testBit_or, Bool.or_eq_false_iff] at hdst_occ
    cases p <;> simp_all
  have hbit : ∀ x : Nat, x.testBit src = true → x.testBit dst = false → ∀ i,
      (x ^^^ (sq_bb src ||| sq_bb dst)).testBit i
        = (!decide (i = src) && (decide (i = dst) || x.testBit i)) := by
    intro x h1 h2 i
    rw [sq_bb_eq_two_pow hsrc, sq_bb_eq_two_pow hdst, Nat.testBit_xor, Nat.testBit_or,
      Nat.testBit_two_pow, Nat.testBit_two_pow]
    by_cases e1 : i = src
    · subst e1
      by_cases e2 : dst = i
      · subst e2; simp_all
      · simp [h1, e2]
    · by_cases e2 : i = dst
      · subst e2
        have e1' : ¬ src = i := fun e => e1 e.symm
        simp [h2, e1, e1']
      · have e1' : ¬ src = i := fun e => e1 e.symm
        have e2' : ¬ dst = i := fun e => e2 e.symm
        simp [e1, e2, e1', e2']
  refine ⟨⟨?_, ?_, ?_⟩, ?_, ?_, ?_, rfl, ?_⟩
  · intro i
    simp only [move_piece, and_self, if_true]
    exact hbit _ hfrom hdst_bb i
  · intro i
    simp only [move_piece, if_true]
    exact hbit _ hsrc_occ hdst_occ i
  · intro i
    simp only [move_piece]
    exact hbit _ hsrc_all hto i
  · simp only [move_piece, Nat.xor_assoc]
  · intro c' p' h
    simp only [move_piece, h, if_false]
  · intro c' h
    simp only [move_piece, h, if_false]
  · intro stm
    simp only [move_piece, addPiece, emptyPosition, sq_bb, and_self, if_true]
    decide

/-- Worked instance of `move_piece_relocates`: the rook of `rooksPosition` moves
from square 0 to square 8; afterwards bit 0 is clear and bit 8 is set. -/
theorem move_piece_relocates_witness :
    ((move_piece sampleKeys rooksPosition WHITE ROOK 0 8).bb WHITE ROOK).testBit 0 = false ∧
    ((move_piece sampleKeys rooksPosition WHITE ROOK 0 8).bb WHITE ROOK).testBit 8 = true ∧
    (move_piece sampleKeys rooksPosition WHITE ROOK 0 8).zobrist
      = rooksPosition.zobrist ^^^ sampleKeys WHITE ROOK 0 ^^^ sampleKeys WHITE ROOK 8 := by
  have h := move_piece_relocates sampleKeys rooksPosition WHITE ROOK 0 8 (by decide) (by decide)
    ⟨fun c => by cases c <;> decide, by decide⟩ (by decide) (by decide)
  exact ⟨(h.1.1 0).trans (by decide), (h.1.1 8).trans (by decide), h.2.1⟩

/-! ### The `int`-returning bit transforms -/

/-- C9: `set(0, 32)` evaluates `0 | (1ULL << 32) = 2 ^ 32`, and the declared
result type `int` keeps only the low 32 bits: the call returns `0`, which read
back as a 64-bit word is `0`, not `0 | sq_bb(32)`.  Likewise `set(0, 31)`
returns `-2 ^ 31`, which reads back as `0xFFFFFFFF80000000`. -/
theorem set_drops_high_bits :
    set 0 32 = 0 ∧ toBitboard (set 0 32) = 0 ∧ (0 ||| sq_bb 32) = 2 ^ 32 ∧
    toBitboard (set 0 32) ≠ (0 ||| sq_bb 32) ∧
    set 0 31 = -2 ^ 31 ∧ toBitboard (set 0 31) = 0xFFFFFFFF80000000 ∧
    toBitboard (set 0 31) ≠ (0 ||| sq_bb 31) := by
  decide

/-- C10: `clear(2 ^ 32, 0)` evaluates `2 ^ 32 & ~1 = 2 ^ 32`, and the declared
result type `int` keeps only the low 32 bits: the call returns `0`, which read
back as a 64-bit word is `0`, not `2 ^ 32 & ~sq_bb(0)`.  Likewise
`clear(2 ^ 31, 0)` returns `-2 ^ 31`, which reads back as
`0xFFFFFFFF80000000`. -/
theorem clear_drops_high_bits :
    clear (2 ^ 32) 0 = 0 ∧ toBitboard (clear (2 ^ 32) 0) = 0 ∧
    (2 ^ 32 &&& not64 (sq_bb 0)) = 2 ^ 32 ∧
    toBitboard (clear (2 ^ 32) 0) ≠ (2 ^ 32 &&& not64 (sq_bb 0)) ∧
    clear (2 ^ 31) 0 = -2 ^ 31 ∧ toBitboard (clear (2 ^ 31) 0) = 0xFFFFFFFF80000000 ∧
    toBitboard (clear (2 ^ 31) 0) ≠ (2 ^ 31 &&& not64 (sq_bb 0)) := by
  decide

/-! ### Traversal of the set bits -/

/-- On a non-zero `w`-bit word, `countr_zero` returns an index below `w` whose
bit is set and below which every bit is clear. -/
theorem countr_zero_spec (w : Nat) : ∀ x : Nat, 0 < x → x < 2 ^ w →
    countr_zero w x < w ∧ x.testBit (countr_zero w x) = true ∧
      ∀ j, j < countr_zero w x → x.testBit j = false := by
  induction w with
  | zero => intro x h0 h1; simp at h1; omega
  | succ w ih =>
    intro x h0 h1
    by_cases hodd : x % 2 = 1
    · simp only [countr_zero, hodd, if_true]
      refine ⟨by omega, by simp [Nat.testBit_zero, hodd], ?_⟩
      intro j hj; omega
    · have hx2 : x / 2 < 2 ^ w := by
        rw [Nat.pow_succ] at h1; omega
      obtain ⟨a, b, d⟩ := ih (x / 2) (by omega) hx2
      simp only [countr_zero, hodd, if_false]
      refine ⟨by omega, ?_, ?_⟩
      · rw [Nat.add_comm, Nat.testBit_succ]; exact b
      · intro j hj
        cases j with
        | zero => simp [Nat.testBit_zero, hodd]
        | succ j => rw [Nat.testBit_succ]; exact d j (by omega)

/-- The update `x & (x - 1)` clears exactly the bit found by `countr_zero`. -/
theorem testBit_and_pred (w : Nat) : ∀ x : Nat, 0 < x → x < 2 ^ w → ∀ i,
    (x &&& (x - 1)).testBit i = (x.testBit i && !decide (i = countr_zero w x)) := by
  induction w with
  | zero => intro x h0 h1; simp at h1; omega
  | succ w ih =>
    intro x h0 h1 i
    rw [Nat.testBit_and]
    by_cases hodd : x % 2 = 1
    · simp only [countr_zero, hodd, if_true]
      cases i with
      | zero =>
        have : (x - 1) % 2 = 0 := by omega
        simp [Nat.testBit_zero, this]
      | succ i =>
        have : (x - 1) / 2 = x / 2 := by omega
        simp [Nat.testBit_succ, this]
    · have hx2 : x / 2 < 2 ^ w := by
        rw [Nat.pow_succ] at h1; omega
      simp only [countr_zero, hodd, if_false]
      cases i with
      | zero => simp [Nat.testBit_zero, hodd]
      | succ i =>
        have h2 : (x - 1) / 2 = x / 2 - 1 := by omega
        have := ih (x / 2) (by omega) hx2 i
        rw [Nat.testBit_and] at this
        rw [Nat.testBit_succ, Nat.testBit_succ, h2, this]
        have e : (i + 1 = 1 + countr_zero w (x / 2)) ↔ (i = countr_zero w (x / 2)) := by omega
        simp [e]

theorem pop_lsb_snd {bb : Nat} (h0 : bb ≠ 0) (h1 : bb < 2 ^ 64) :
    (pop_lsb bb).2 = bb &&& (bb - 1) := by
  have : (bb + 2 ^ 64 - 1) % 2 ^ 64 = bb - 1 := by omega
  simp only [pop_lsb, this]

theorem mem_setBits (bb i : Nat) : i ∈ setBits bb ↔ i < 64 ∧ bb.testBit i = true := by
  simp [setBits, List.mem_filter, List.mem_range]

theorem setBits_sorted (bb : Nat) : (setBits bb).Pairwise (· < ·) :=
  List.Pairwise.filter _ (List.pairwise_lt_range 64)

theorem setBits_zero : setBits 0 = [] := by
  simp [setBits]

theorem setBits_pop {bb : Nat} (h0 : bb ≠ 0) (h1 : bb < 2 ^ 64) :
    setBits bb = (pop_lsb bb).1 :: setBits (pop_lsb bb).2 := by
  obtain ⟨a, b, d⟩ := countr_zero_spec 64 bb (by omega) h1
  have hbit := testBit_and_pred 64 bb (by omega) h1
  rw [pop_lsb_snd h0 h1]
  show setBits bb = countr_zero 64 bb :: setBits (bb &&& (bb - 1))
  have hmem : ∀ i, i ∈ setBits (bb &&& (bb - 1)) ↔
      i < 64 ∧ bb.testBit i = true ∧ i ≠ countr_zero 64 bb := by
    intro i
    rw [mem_setBits, hbit i]
    simp
  have hs : (countr_zero 64 bb :: setBits (bb &&& (bb - 1))).Pairwise (· < ·) := by
    rw [List.pairwise_cons]
    refine ⟨?_, setBits_sorted _⟩
    intro i hi
    obtain ⟨_, h3, h4⟩ := (hmem i).1 hi
    rcases Nat.lt_trichotomy i (countr_zero 64 bb) with h | h | h
    · rw [d i h] at h3; cases h3
    · exact absurd h h4
    · exact h
  apply List.eq_of_perm_of_sorted ?_ (setBits_sorted bb) hs
  rw [List.perm_ext_iff_of_nodup (setBits_sorted bb).nodup hs.nodup]
  intro i
  rw [List.mem_cons, hmem, mem_setBits]
  constructor
  · rintro ⟨h2, h3⟩
    by_cases e : i = countr_zero 64 bb
    · exact Or.inl e
    · exact Or.inr ⟨h2, h3, e⟩
  · rintro (e | ⟨h2, h3, _⟩)
    · subst e; exact ⟨a, b⟩
    · exact ⟨h2, h3⟩

theorem pop_lsb_snd_lt {bb : Nat} (h0 : bb ≠ 0) (h1 : bb < 2 ^ 64) : (pop_lsb bb).2 < bb := by
  rw [pop_lsb_snd h0 h1]
  have : bb &&& (bb - 1) ≤ bb - 1 := Nat.and_le_right
  omega

theorem for_each_eq_foldl {σ : Type} (f : Nat → σ → σ) : ∀ (bb : Nat), bb < 2 ^ 64 → ∀ st : σ,
    for_each bb f st = (setBits bb).foldl (fun acc sq => f sq acc) st := by
  intro bb
  induction bb using Nat.strong_induction_on with
  | _ bb ih =>
    intro h1 st
    rw [for_each]
    by_cases h0 : bb = 0
    · subst h0
      simp [setBits_zero]
    · have hlt := pop_lsb_snd_lt h0 h1
      rw [dif_neg h0, ih _ hlt (by omega), setBits_pop h0 h1, List.foldl_cons]

theorem foldl_snoc_eq (l : List Nat) : ∀ init : List Nat,
    l.foldl (fun acc sq => acc ++ [sq]) init = init ++ l := by
  induction l with
  | nil => intro init; simp
  | cons a l ih => intro init; rw [List.foldl_cons, ih]; simp

/-- C6: for every 64-bit mask `bb`, the squares that `for_each(bb, f)` passes to
`f` are exactly the indices of the set bits of `bb`, each once, in strictly
increasing order (so for any visitor the final state is the fold of `f` over
that list); for `bb = 0` nothing is visited. -/
theorem for_each_traversal (bb : Nat) (hbb : bb < 2 ^ 64) :
    visited bb = setBits bb ∧
    (∀ (σ : Type) (f : Nat → σ → σ) (st : σ),
      for_each bb f st = (setBits bb).foldl (fun acc sq => f sq acc) st) ∧
    (∀ i, i ∈ visited bb ↔ i < 64 ∧ bb.testBit i = true) ∧
    (visited bb).Pairwise (· < ·) ∧
    (visited bb).Nodup ∧
    visited 0 = [] := by
  have hv : ∀ x, x < 2 ^ 64 → visited x = setBits x := by
    intro x hx
    unfold visited
    rw [for_each_eq_foldl _ x hx, foldl_snoc_eq, List.nil_append]
  refine ⟨hv bb hbb, fun σ f st => for_each_eq_foldl f bb hbb st, ?_, ?_, ?_, ?_⟩
  · intro i; rw [hv bb hbb]; exact mem_setBits bb i
  · rw [hv bb hbb]; exact setBits_sorted bb
  · rw [hv bb hbb]; exact (setBits_sorted bb).nodup
  · rw [hv 0 (by norm_num)]; exact setBits_zero

/-- Worked instance of `for_each_traversal`: the mask `0b100000100` is visited
as squares 2 and 8, in that order. -/
theorem for_each_traversal_witness : visited 0b100000100 = [2, 8] :=
  (for_each_traversal 0b100000100 (by norm_num)).1.trans (by decide)

/-! ### The mutators as bit toggles -/

theorem xor_place {x s : Nat} (hx : x.testBit s = false) (i : Nat) :
    (x ^^^ 2 ^ s).testBit i = true ↔ x.testBit i = true ∨ i = s := by
  rw [Nat.testBit_xor, Nat.testBit_two_pow]
  by_cases h : s = i
  · subst h; simp [hx]
  · have h' : ¬ i = s := fun e => h e.symm
    simp [h, h']

theorem xor_lift {x s : Nat} (hx : x.testBit s = true) (i : Nat) :
    (x ^^^ 2 ^ s).testBit i = true ↔ x.testBit i = true ∧ i ≠ s := by
  rw [Nat.testBit_xor, Nat.testBit_two_pow]
  by_cases h : s = i
  · subst h; simp [hx]
  · have h' : ¬ i = s := fun e => h e.symm
    simp [h, h']

theorem or_eq_xor_of_clear {x s : Nat} (hx : x.testBit s = false) : x ||| 2 ^ s = x ^^^ 2 ^ s := by
  apply Nat.eq_of_testBit_eq
  intro i
  rw [Bool.eq_iff_iff, xor_place hx, Nat.testBit_or, Nat.testBit_two_pow]
  by_cases h : s = i
  · subst h; simp
  · have h' : ¬ i = s := fun e => h e.symm
    simp [h, h']

theorem and_not64_eq_xor_of_set {x s : Nat} (hs : s < 64) (h64 : x < 2 ^ 64)
    (hx : x.testBit s = true) : x &&& not64 (2 ^ s) = x ^^^ 2 ^ s := by
  apply Nat.eq_of_testBit_eq
  intro i
  rw [Bool.eq_iff_iff, xor_lift hx, Nat.testBit_and, testBit_not64_two_pow hs]
  by_cases hi : i < 64
  · by_cases h : s = i
    · subst h; simp
    · have h' : ¬ i = s := fun e => h e.symm
      simp [hi, h, h']
  · simp [hi, testBit_of_lt_word h64 (Nat.le_of_not_lt hi)]

theorem xor_pair_eq {x a b : Nat} (hab : a ≠ b) :
    x ^^^ (2 ^ a ||| 2 ^ b) = x ^^^ 2 ^ a ^^^ 2 ^ b := by
  have h : (2 ^ a).testBit b = false := by
    rw [Nat.testBit_two_pow]; simp [hab]
  rw [or_eq_xor_of_clear h, Nat.xor_assoc]

theorem addPiece_eq_toggle (ZKEY : KeyTable) (pos : Position) (c : Colour) (p : Piece) {s : Nat}
    (hs : s < 64) (h1 : (pos.bb c p).testBit s = false) (h2 : (pos.occ c).testBit s = false)
    (h3 : pos.allOcc.testBit s = false) :
    addPiece ZKEY pos c p s = toggleSquare ZKEY pos c p s := by
  simp only [addPiece, toggleSquare, mask_eq_two_pow hs, or_eq_xor_of_clear h1,
    or_eq_xor_of_clear h2, or_eq_xor_of_clear h3]

theorem removePiece_eq_toggle (ZKEY : KeyTable) (pos : Position) (c : Colour) (p : Piece)
    {s : Nat} (hs : s < 64) (hfit : fits64 pos) (h1 : (pos.bb c p).testBit s = true)
    (h2 : (pos.occ c).testBit s = true) (h3 : pos.allOcc.testBit s = true) :
    removePiece ZKEY pos c p s = toggleSquare ZKEY pos c p s := by
  apply Position.eq_of_fields
  · intro c' p'
    simp only [removePiece, toggleSquare, mask_eq_two_pow hs]
    by_cases h : c' = c ∧ p' = p
    · simp only [h, and_self, if_true]
      exact and_not64_eq_xor_of_set hs (hfit.1 c p) h1
    · simp only [h, if_false]
  · intro c'
    simp only [removePiece, toggleSquare, mask_eq_two_pow hs]
    by_cases h : c' = c
    · simp only [h, if_true]
      exact and_not64_eq_xor_of_set hs (hfit.2.1 c) h2
    · simp only [h, if_false]
  · simp only [removePiece, toggleSquare, mask_eq_two_pow hs]
    exact and_not64_eq_xor_of_set hs hfit.2.2 h3
  · rfl
  · rfl

theorem move_piece_eq_toggle (ZKEY : KeyTable) (pos : Position) (c : Colour) (p : Piece)
    {src dst : Nat} (h1 : src < 64) (h2 : dst < 64) (hne : src ≠ dst) :
    move_piece ZKEY pos c p src dst
      = toggleSquare ZKEY (toggleSquare ZKEY pos c p src) c p dst := by
  apply Position.eq_of_fields
  · intro c' p'
    simp only [move_piece, toggleSquare, sq_bb_eq_two_pow h1, sq_bb_eq_two_pow h2]
    by_cases h : c' = c ∧ p' = p
    · simp only [h, and_self, if_true]
      exact xor_pair_eq hne
    · simp only [h, if_false]
  · intro c'
    simp only [move_piece, toggleSquare, sq_bb_eq_two_pow h1, sq_bb_eq_two_pow h2]
    by_cases h : c' = c
    · simp only [h, if_true]
      exact xor_pair_eq hne
    · simp only [h, if_false]
  · simp only [move_piece, toggleSquare, sq_bb_eq_two_pow h1, sq_bb_eq_two_pow h2]
    exact xor_pair_eq hne
  · rfl
  · simp only [move_piece, toggleSquare, Nat.xor_assoc]

theorem testBit_unionOf (pos : Position) (c : Colour) (i : Nat) :
    (unionOf pos c).testBit i = true ↔ ∃ p, (pos.bb c p).testBit i = true := by
  unfold unionOf
  simp only [Nat.testBit_or, Bool.or_eq_true]
  constructor
  · rintro (((((h | h) | h) | h) | h) | h) <;> exact ⟨_, h⟩
  · rintro ⟨p, h⟩
    cases p <;> simp [h]

theorem unionInv_bits {pos : Position} (h : UnionInv pos) :
    (∀ c i, (pos.occ c).testBit i = true ↔ ∃ p, (pos.bb c p).testBit i = true) ∧
    (∀ i, pos.allOcc.testBit i = true ↔ ∃ c, (pos.occ c).testBit i = true) := by
  refine ⟨fun c i => ?_, fun i => ?_⟩
  · rw [h.1 c, testBit_unionOf]
  · rw [h.2, Nat.testBit_or, Bool.or_eq_true]
    constructor
    · rintro (h | h) <;> exact ⟨_, h⟩
    · rintro ⟨c, h⟩
      cases c
      · exact Or.inl h
      · exact Or.inr h

theorem unionInv_of_bits {pos : Position}
    (h1 : ∀ c i, (pos.occ c).testBit i = true ↔ ∃ p, (pos.bb c p).testBit i = true)
    (h2 : ∀ i, pos.allOcc.testBit i = true ↔ ∃ c, (pos.occ c).testBit i = true) :
    UnionInv pos := by
  refine ⟨fun c => Nat.eq_of_testBit_eq fun i => ?_, Nat.eq_of_testBit_eq fun i => ?_⟩
  · rw [Bool.eq_iff_iff, h1, testBit_unionOf]
  · rw [Bool.eq_iff_iff, h2, Nat.testBit_or, Bool.or_eq_true]
    constructor
    · rintro ⟨c, h⟩
      cases c
      · exact Or.inl h
      · exact Or.inr h
    · rintro (h | h) <;> exact ⟨_, h⟩

/-- C4: for every position (a 64-bit record satisfying the union invariant of
the data model), colour `c`, piece `p` and square `s` in `0..63` that is empty
(bit `s` clear in `allOcc`), `removePiece(pos, c, p, s)` applied after
`addPiece(pos, c, p, s)` yields a position equal to the original in every
field: the twelve `bb` masks, both `occ` masks, `allOcc`, `stm` and
`zobrist`. -/
theorem add_remove_inverse (ZKEY : KeyTable) (pos : Position) (c : Colour) (p : Piece) (s : Nat)
    (hs : s < 64) (hfit : fits64 pos) (hU : UnionInv pos)
    (hall : pos.allOcc.testBit s = false) :
    removePiece ZKEY (addPiece ZKEY pos c p s) c p s = pos := by
  obtain ⟨ho, ha⟩ := unionInv_bits hU
  have hocc : (pos.occ c).testBit s = false := by
    cases hc : (pos.occ c).testBit s
    · rfl
    · rw [(ha s).2 ⟨c, hc⟩] at hall
      cases hall
  have hbb : (pos.bb c p).testBit s = false := by
    cases hc : (pos.bb c p).testBit s
    · rfl
    · rw [(ho c s).2 ⟨p, hc⟩] at hocc
      cases hocc
  exact add_remove_inverse_of_clear ZKEY pos c p s hs hfit hbb hocc hall

/-- Worked instance of `add_remove_inverse`: a white rook added on the empty
square 8 of `rooksPosition` and removed again. -/
theorem add_remove_inverse_witness :
    rooksPosition.allOcc.testBit 8 = false ∧
    removePiece sampleKeys (addPiece sampleKeys rooksPosition WHITE ROOK 8) WHITE ROOK 8
      = rooksPosition :=
  ⟨by decide, add_remove_inverse sampleKeys rooksPosition WHITE ROOK 8 (by decide)
    ⟨fun c p => by cases c <;> cases p <;> decide, fun c => by cases c <;> decide, by decide⟩
    ⟨fun c => by cases c <;> decide, by decide⟩ (by decide)⟩

theorem xorKeys_toggle (key : Nat → Nat) (b s : Nat) : ∀ n : Nat,
    xorKeys key (b ^^^ 2 ^ s) n = xorKeys key b n ^^^ (if s < n then key s else 0) := by
  intro n
  induction n with
  | zero => simp [xorKeys]
  | succ n ih =>
    simp only [xorKeys, ih, Nat.testBit_xor, Nat.testBit_two_pow]
    by_cases h : s = n
    · subst h
      cases hb : b.testBit s <;> simp [xor_xor_cancel]
    · have h1 : (s < n + 1) ↔ (s < n) := by omega
      simp only [h, h1, decide_False, Bool.xor_false]
      ac_rfl

/-! ### Preservation of the structural invariants -/

theorem pieceHash_toggle (ZKEY : KeyTable) (pos : Position) (c : Colour) (p : Piece) {s : Nat}
    (hs : s < 64) (c' : Colour) (p' : Piece) :
    pieceHash ZKEY (toggleSquare ZKEY pos c p s) c' p'
      = if c' = c ∧ p' = p then pieceHash ZKEY pos c p ^^^ ZKEY c p s
        else pieceHash ZKEY pos c' p' := by
  by_cases h : c' = c ∧ p' = p
  · obtain ⟨rfl, rfl⟩ := h
    simp only [pieceHash, toggleSquare, and_self, if_true, xorKeys_toggle, hs]
  · simp only [pieceHash, toggleSquare, h, if_false]

theorem hashOf_toggle (ZKEY : KeyTable) (pos : Position) (c : Colour) (p : Piece) {s : Nat}
    (hs : s < 64) :
    hashOf ZKEY (toggleSquare ZKEY pos c p s) = hashOf ZKEY pos ^^^ ZKEY c p s := by
  simp only [hashOf, colourHash, pieceHash_toggle ZKEY pos c p hs]
  cases c <;> cases p <;>
    simp only [reduceCtorEq, and_self, and_false, false_and, if_true, if_false] <;> ac_rfl

theorem fits64_toggle {pos : Position} (hF : fits64 pos) (ZKEY : KeyTable) (c : Colour)
    (p : Piece) {s : Nat} (hs : s < 64) : fits64 (toggleSquare ZKEY pos c p s) := by
  have h2 := two_pow_lt_word hs
  refine ⟨fun c' p' => ?_, fun c' => ?_, ?_⟩
  · simp only [toggleSquare]
    split
    · exact Nat.xor_lt_two_pow (hF.1 c p) h2
    · exact hF.1 c' p'
  · simp only [toggleSquare]
    split
    · exact Nat.xor_lt_two_pow (hF.2.1 c) h2
    · exact hF.2.1 c'
  · exact Nat.xor_lt_two_pow hF.2.2 h2

/-- Placing a piece on a wholly empty square keeps a position consistent. -/
theorem consistent_place {ZKEY : KeyTable} {pos : Position} (h : Consistent ZKEY pos)
    (c : Colour) (p : Piece) {s : Nat} (hs : s < 64) (he : whollyEmpty pos s) :
    Consistent ZKEY (toggleSquare ZKEY pos c p s) := by
  obtain ⟨hF, hU, hD, hH⟩ := h
  obtain ⟨ho, ha⟩ := unionInv_bits hU
  have eocc : ∀ c', (pos.occ c').testBit s = false := by
    intro c'
    cases hc : (pos.occ c').testBit s
    · rfl
    · obtain ⟨p', hp'⟩ := (ho c' s).1 hc
      rw [he c' p'] at hp'
      cases hp'
  have eall : pos.allOcc.testBit s = false := by
    cases hc : pos.allOcc.testBit s
    · rfl
    · obtain ⟨c', hc'⟩ := (ha s).1 hc
      rw [eocc c'] at hc'
      cases hc'
  have hb' : ∀ c' p' i, ((toggleSquare ZKEY pos c p s).bb c' p').testBit i = true ↔
      (pos.bb c' p').testBit i = true ∨ (c' = c ∧ p' = p ∧ i = s) := by
    intro c' p' i
    simp only [toggleSquare]
    by_cases hcp : c' = c ∧ p' = p
    · obtain ⟨rfl, rfl⟩ := hcp
      simp only [and_self, if_true, true_and]
      exact xor_place (he _ _) i
    · simp only [hcp, if_false]
      constructor
      · exact Or.inl
      · rintro (h1 | ⟨a, b, _⟩)
        · exact h1
        · exact absurd ⟨a, b⟩ hcp
  have ho' : ∀ c' i, ((toggleSquare ZKEY pos c p s).occ c').testBit i = true ↔
      (pos.occ c').testBit i = true ∨ (c' = c ∧ i = s) := by
    intro c' i
    simp only [toggleSquare]
    by_cases hc : c' = c
    · subst hc
      simp only [if_true, true_and]
      exact xor_place (eocc _) i
    · simp only [hc, if_false, false_and, or_false]
  have ha' : ∀ i, (toggleSquare ZKEY pos c p s).allOcc.testBit i = true ↔
      pos.allOcc.testBit i = true ∨ i = s := fun i => xor_place eall i
  refine ⟨fits64_toggle hF ZKEY c p hs, unionInv_of_bits ?_ ?_, ?_, ?_⟩
  · intro c' i
    rw [ho']
    simp only [hb']
    rw [ho c' i]
    constructor
    · rintro (⟨p', h1⟩ | ⟨h1, h2⟩)
      · exact ⟨p', Or.inl h1⟩
      · exact ⟨p, Or.inr ⟨h1, rfl, h2⟩⟩
    · rintro ⟨p', h1 | ⟨h1, _, h3⟩⟩
      · exact Or.inl ⟨p', h1⟩
      · exact Or.inr ⟨h1, h3⟩
  · intro i
    rw [ha']
    simp only [ho']
    rw [ha i]
    constructor
    · rintro (⟨c', h1⟩ | h1)
      · exact ⟨c', Or.inl h1⟩
      · exact ⟨c, Or.inr ⟨rfl, h1⟩⟩
    · rintro ⟨c', h1 | ⟨_, h2⟩⟩
      · exact Or.inl ⟨c', h1⟩
      · exact Or.inr h2
  · intro i c₁ p₁ c₂ p₂ h1 h2
    rw [hb'] at h1 h2
    rcases h1 with h1 | ⟨a1, b1, d1⟩
    · rcases h2 with h2 | ⟨_, _, d2⟩
      · exact hD i c₁ p₁ c₂ p₂ h1 h2
      · rw [d2, he c₁ p₁] at h1
        cases h1
    · rcases h2 with h2 | ⟨a2, b2, _⟩
      · rw [d1, he c₂ p₂] at h2
        cases h2
      · exact ⟨a1.trans a2.symm, b1.trans b2.symm⟩
  · rw [hashOf_toggle ZKEY pos c p hs, ← hH]
    rfl

/-- Lifting a piece that is present keeps a position consistent. -/
theorem consistent_lift {ZKEY : KeyTable} {pos : Position} (h : Consistent ZKEY pos)
    (c : Colour) (p : Piece) {s : Nat} (hs : s < 64) (hp : (pos.bb c p).testBit s = true) :
    Consistent ZKEY (toggleSquare ZKEY pos c p s) := by
  obtain ⟨hF, hU, hD, hH⟩ := h
  obtain ⟨ho, ha⟩ := unionInv_bits hU
  have socc : (pos.occ c).testBit s = true := (ho c s).2 ⟨p, hp⟩
  have sall : pos.allOcc.testBit s = true := (ha s).2 ⟨c, socc⟩
  have hb' : ∀ c' p' i, ((toggleSquare ZKEY pos c p s).bb c' p').testBit i = true ↔
      (pos.bb c' p').testBit i = true ∧ ¬ (c' = c ∧ p' = p ∧ i = s) := by
    intro c' p' i
    simp only [toggleSquare]
    by_cases hcp : c' = c ∧ p' = p
    · obtain ⟨rfl, rfl⟩ := hcp
      simp only [and_self, if_true, true_and]
      exact xor_lift hp i
    · simp only [hcp, if_false]
      constructor
      · exact fun h1 => ⟨h1, fun ⟨a, b, _⟩ => hcp ⟨a, b⟩⟩
      · exact fun h1 => h1.1
  have ho' : ∀ c' i, ((toggleSquare ZKEY pos c p s).occ c').testBit i = true ↔
      (pos.occ c').testBit i = true ∧ ¬ (c' = c ∧ i = s) := by
    intro c' i
    simp only [toggleSquare]
    by_cases hc : c' = c
    · subst hc
      simp only [if_true, true_and]
      exact xor_lift socc i
    · simp only [hc, if_false, false_and, not_false_eq_true, and_true]
  have ha' : ∀ i, (toggleSquare ZKEY pos c p s).allOcc.testBit i = true ↔
      pos.allOcc.testBit i = true ∧ i ≠ s := fun i => xor_lift sall i
  refine ⟨fits64_toggle hF ZKEY c p hs, unionInv_of_bits ?_ ?_, ?_, ?_⟩
  · intro c' i
    rw [ho']
    simp only [hb']
    rw [ho c' i]
    constructor
    · rintro ⟨⟨p', h1⟩, h2⟩
      exact ⟨p', h1, fun ⟨a, _, d⟩ => h2 ⟨a, d⟩⟩
    · rintro ⟨p', h1, h2⟩
      refine ⟨⟨p', h1⟩, ?_⟩
      rintro ⟨a, d⟩
      subst a d
      exact h2 ⟨rfl, (hD _ _ _ _ _ h1 hp).2, rfl⟩
  · intro i
    rw [ha']
    simp only [ho']
    rw [ha i]
    constructor
    · rintro ⟨⟨c', h1⟩, h2⟩
      exact ⟨c', h1, fun ⟨_, d⟩ => h2 d⟩
    · rintro ⟨c', h1, h2⟩
      refine ⟨⟨c', h1⟩, ?_⟩
      intro d
      subst d
      obtain ⟨p', h3⟩ := (ho c' _).1 h1
      exact h2 ⟨(hD _ _ _ _ _ h3 hp).1, rfl⟩
  · intro i c₁ p₁ c₂ p₂ h1 h2
    rw [hb'] at h1 h2
    exact hD i c₁ p₁ c₂ p₂ h1.1 h2.1
  · rw [hashOf_toggle ZKEY pos c p hs, ← hH]
    rfl

theorem xorKeys_zero (key : Nat → Nat) : ∀ n : Nat, xorKeys key 0 n = 0 := by
  intro n
  induction n with
  | zero => rfl
  | succ n ih => simp [xorKeys, ih]

theorem consistent_empty (ZKEY : KeyTable) (stm : Colour) :
    Consistent ZKEY (emptyPosition stm) := by
  refine ⟨⟨fun _ _ => ?_, fun _ => ?_, ?_⟩, ⟨fun _ => ?_, ?_⟩, ?_, ?_⟩
  · simp only [emptyPosition]; norm_num
  · simp only [emptyPosition]; norm_num
  · simp only [emptyPosition]; norm_num
  · simp [emptyPosition, unionOf]
  · simp [emptyPosition]
  · intro s c₁ p₁ c₂ p₂ h1
    simp [emptyPosition] at h1
  · simp [hashOf, colourHash, pieceHash, emptyPosition, xorKeys_zero]

theorem occ_clear_of_whollyEmpty {pos : Position} (hU : UnionInv pos) {s : Nat}
    (he : whollyEmpty pos s) :
    (∀ c, (pos.occ c).testBit s = false) ∧ pos.allOcc.testBit s = false := by
  obtain ⟨ho, ha⟩ := unionInv_bits hU
  have eocc : ∀ c', (pos.occ c').testBit s = false := by
    intro c'
    cases hc : (pos.occ c').testBit s
    · rfl
    · obtain ⟨p', hp'⟩ := (ho c' s).1 hc
      rw [he c' p'] at hp'
      cases hp'
  refine ⟨eocc, ?_⟩
  cases hc : pos.allOcc.testBit s
  · rfl
  · obtain ⟨c', hc'⟩ := (ha s).1 hc
    rw [eocc c'] at hc'
    cases hc'

theorem consistent_addPiece {ZKEY : KeyTable} {pos : Position} (h : Consistent ZKEY pos)
    (c : Colour) (p : Piece) {s : Nat} (hs : s < 64) (he : whollyEmpty pos s) :
    Consistent ZKEY (addPiece ZKEY pos c p s) := by
  obtain ⟨e1, e2⟩ := occ_clear_of_whollyEmpty h.2.1 he
  rw [addPiece_eq_toggle ZKEY pos c p hs (he c p) (e1 c) e2]
  exact consistent_place h c p hs he

theorem consistent_removePiece {ZKEY : KeyTable} {pos : Position} (h : Consistent ZKEY pos)
    (c : Colour) (p : Piece) {s : Nat} (hs : s < 64) (hp : (pos.bb c p).testBit s = true) :
    Consistent ZKEY (removePiece ZKEY pos c p s) := by
  obtain ⟨ho, ha⟩ := unionInv_bits h.2.1
  have socc : (pos.occ c).testBit s = true := (ho c s).2 ⟨p, hp⟩
  have sall : pos.allOcc.testBit s = true := (ha s).2 ⟨c, socc⟩
  rw [removePiece_eq_toggle ZKEY pos c p hs h.1 hp socc sall]
  exact consistent_lift h c p hs hp

theorem consistent_move_piece {ZKEY : KeyTable} {pos : Position} (h : Consistent ZKEY pos)
    (c : Colour) (p : Piece) {src dst : Nat} (h1 : src < 64) (h2 : dst < 64)
    (hp : (pos.bb c p).testBit src = true) (he : whollyEmpty pos dst) :
    Consistent ZKEY (move_piece ZKEY pos c p src dst) := by
  have hne : src ≠ dst := by
    intro e
    rw [e, he c p] at hp
    cases hp
  rw [move_piece_eq_toggle ZKEY pos c p h1 h2 hne]
  apply consistent_place (consistent_lift h c p h1 hp) c p h2
  intro c' p'
  simp only [toggleSquare]
  split
  · rw [Nat.testBit_xor, he c p, Nat.testBit_two_pow]
    simp [hne]
  · exact he c' p'

/-- Every reachable position is consistent: 64-bit masks, union invariant,
disjointness invariant and hash consistency all hold. -/
theorem reachable_consistent {ZKEY : KeyTable} {pos : Position} (h : Reachable ZKEY pos) :
    Consistent ZKEY pos := by
  induction h with
  | empty stm => exact consistent_empty ZKEY stm
  | add c p s _ hs he ih => exact consistent_addPiece ih c p hs he
  | remove c p s _ hs hp ih => exact consistent_removePiece ih c p hs hp
  | move c p src dst _ h1 h2 hp he ih => exact consistent_move_piece ih c p h1 h2 hp he

/-- The worked example position with the rook moved from square 0 to square 8
is reachable. -/
theorem reachable_rooks_moved :
    Reachable sampleKeys (move_piece sampleKeys rooksPosition WHITE ROOK 0 8) := by
  have r0 : Reachable sampleKeys (addPiece sampleKeys (emptyPosition WHITE) WHITE ROOK 0) :=
    Reachable.add WHITE ROOK 0 (Reachable.empty WHITE) (by decide)
      (fun c p => by cases c <;> cases p <;> decide)
  have r1 : Reachable sampleKeys rooksPosition :=
    Reachable.add WHITE ROOK 7 r0 (by decide) (fun c p => by cases c <;> cases p <;> decide)
  exact Reachable.move WHITE ROOK 0 8 r1 (by decide) (by decide) (by decide)
    (fun c p => by cases c <;> cases p <;> decide)

/-! ### Invariants of reachable positions -/

/-- C1 (union invariant): for every key table and every position reachable
from the empty position by `addPiece` onto a wholly empty square, `removePiece`
of a present piece and `move_piece` from a square holding the piece to a wholly
empty square, `occ[c]` is the OR of the six `bb[c][*]` for each colour `c`, and
`allOcc = occ[WHITE] | occ[BLACK]`. -/
theorem reachable_union (ZKEY : KeyTable) (pos : Position) (h : Reachable ZKEY pos) :
    (∀ c, pos.occ c = pos.bb c PAWN ||| pos.bb c KNIGHT ||| pos.bb c BISHOP ||| pos.bb c ROOK |||
        pos.bb c QUEEN ||| pos.bb c KING) ∧
    pos.allOcc = pos.occ WHITE ||| pos.occ BLACK :=
  (reachable_consistent h).2.1

/-- Worked instance of `reachable_union`: after two `addPiece` calls and one
`move_piece` call the occupancy masks are the unions of the placement masks. -/
theorem reachable_union_witness :
    UnionInv (move_piece sampleKeys rooksPosition WHITE ROOK 0 8) :=
  reachable_union sampleKeys _ reachable_rooks_moved

/-- C2 (hash consistency): for every key table `ZKEY` and every reachable
position, `zobrist` is the XOR of `ZKEY[c][p][s]` over exactly the triples
`(c, p, s)` with bit `s` set in `bb[c][p]`. -/
theorem reachable_hash (ZKEY : KeyTable) (pos : Position) (h : Reachable ZKEY pos) :
    pos.zobrist = hashOf ZKEY pos :=
  (reachable_consistent h).2.2.2

/-- Worked instance of `reachable_hash`: with rooks on squares 7 and 8 the hash
is the XOR of the two rook keys. -/
theorem reachable_hash_witness :
    (move_piece sampleKeys rooksPosition WHITE ROOK 0 8).zobrist
      = sampleKeys WHITE ROOK 7 ^^^ sampleKeys WHITE ROOK 8 :=
  (reachable_hash sampleKeys _ reachable_rooks_moved).trans (by decide)

/-- C3 (disjointness invariant): in every reachable position and for every
square `s` in `0..63`, at most one (colour, piece) pair has bit `s` set among
the twelve placement masks. -/
theorem reachable_disjoint (ZKEY : KeyTable) (pos : Position) (h : Reachable ZKEY pos)
    (s : Nat) (_hs : s < 64) (c₁ : Colour) (p₁ : Piece) (c₂ : Colour) (p₂ : Piece)
    (h1 : (pos.bb c₁ p₁).testBit s = true) (h2 : (pos.bb c₂ p₂).testBit s = true) :
    c₁ = c₂ ∧ p₁ = p₂ :=
  (reachable_consistent h).2.2.1 s c₁ p₁ c₂ p₂ h1 h2

/-- Worked instance of `reachable_disjoint`: square 8 of the example position,
which holds the white rook. -/
theorem reachable_disjoint_witness :
    ((move_piece sampleKeys rooksPosition WHITE ROOK 0 8).bb WHITE ROOK).testBit 8 = true ∧
    (WHITE = WHITE ∧ ROOK = ROOK) :=
  ⟨by decide, reachable_disjoint sampleKeys _ reachable_rooks_moved 8 (by decide)
    WHITE ROOK WHITE ROOK (by decide) (by decide)⟩

/-! ### Lowest set bit and population count -/

/-- C11: for every non-zero 64-bit mask `bb`, `pop_lsb` returns the index `i`
of the least-significant set bit (`i < 64`, bit `i` set, every bit below `i`
clear) and leaves `bb` equal to its old value with exactly bit `i` cleared. -/
theorem pop_lsb_post (bb : Nat) (h0 : bb ≠ 0) (h1 : bb < 2 ^ 64) :
    (pop_lsb bb).1 < 64 ∧
    bb.testBit (pop_lsb bb).1 = true ∧
    (∀ j, j < (pop_lsb bb).1 → bb.testBit j = false) ∧
    (∀ k, (pop_lsb bb).2.testBit k = (bb.testBit k && !decide (k = (pop_lsb bb).1))) ∧
    (pop_lsb bb).2 = bb ^^^ 2 ^ (pop_lsb bb).1 := by
  obtain ⟨a, b, d⟩ := countr_zero_spec 64 bb (by omega) h1
  have hbit := testBit_and_pred 64 bb (by omega) h1
  have e1 : (pop_lsb bb).1 = countr_zero 64 bb := rfl
  rw [pop_lsb_snd h0 h1, e1]
  refine ⟨a, b, d, hbit, ?_⟩
  apply Nat.eq_of_testBit_eq
  intro k
  rw [Bool.eq_iff_iff, xor_lift b k, hbit k]
  simp

/-- Worked instance of `pop_lsb_post`: on `0b100000100` the call returns
square 2 and leaves `0b100000000`. -/
theorem pop_lsb_post_witness :
    pop_lsb 0b100000100 = (2, 0b100000000) ∧
    (pop_lsb 0b100000100).2 = 0b100000100 ^^^ 2 ^ (pop_lsb 0b100000100).1 :=
  ⟨by decide, (pop_lsb_post 0b100000100 (by decide) (by norm_num)).2.2.2.2⟩

/-- The word-level population count is the number of set bits among the low
`w` bits. -/
theorem popcountW_eq_length (w : Nat) : ∀ x : Nat,
    popcountW w x = ((List.range w).filter (fun i => x.testBit i)).length := by
  induction w with
  | zero => intro x; rfl
  | succ w ih =>
    intro x
    rw [List.range_succ_eq_map, List.filter_cons, List.filter_map, popcountW, ih (x / 2)]
    have hf : ((fun i => x.testBit i) ∘ Nat.succ) = (fun i => (x / 2).testBit i) := by
      funext i
      simp [Nat.testBit_succ]
    rw [hf]
    by_cases hodd : x % 2 = 1
    · simp [Nat.testBit_zero, hodd, Nat.add_comm]
    · have h2 : x % 2 = 0 := by omega
      simp [Nat.testBit_zero, h2]

theorem popcount_eq_length (bb : Nat) : popcount bb = (setBits bb).length :=
  popcountW_eq_length 64 bb

/-- C12: for every non-zero 64-bit mask `bb`, `popcount(bb)` equals
`1 + popcount(bb')` where `bb'` is the mask left by `pop_lsb(bb)`. -/
theorem popcount_pop_lsb (bb : Nat) (h0 : bb ≠ 0) (h1 : bb < 2 ^ 64) :
    popcount bb = 1 + popcount (pop_lsb bb).2 := by
  rw [popcount_eq_length, popcount_eq_length, setBits_pop h0 h1, List.length_cons, Nat.add_comm]

/-- Worked instance of `popcount_pop_lsb`: `0b100000100` has two set bits, the
mask left by `pop_lsb` has one. -/
theorem popcount_pop_lsb_witness :
    popcount 0b100000100 = 2 ∧ popcount 0b100000100 = 1 + popcount (pop_lsb 0b100000100).2 :=
  ⟨by decide, popcount_pop_lsb 0b100000100 (by decide) (by norm_num)⟩

/-! ### Coordinates and the file and rank masks -/

/-- C13: for every rank `r` and file `f` in `0..7`, `make_sq(r, f) = r*8 + f`
lies in `0..63` with `rank_of` and `file_of` returning `r` and `f`; and for
every square `s` in `0..63`, `rank_of(s)` and `file_of(s)` lie in `0..7` and
`make_sq(rank_of(s), file_of(s)) = s`. -/
theorem coordinate_round_trip :
    (∀ r, r < 8 → ∀ f, f < 8 →
      make_sq r f = r * 8 + f ∧ make_sq r f < 64 ∧
      rank_of (make_sq r f) = r ∧ file_of (make_sq r f) = f) ∧
    (∀ s, s < 64 →
      rank_of s < 8 ∧ file_of s < 8 ∧ make_sq (rank_of s) (file_of s) = s) := by
  constructor <;> decide

/-- Worked instance of `coordinate_round_trip`: rank 5, file 3 is square 43,
and square 43 splits back into rank 5 and file 3. -/
theorem coordinate_round_trip_witness :
    (make_sq 5 3 = 5 * 8 + 3 ∧ make_sq 5 3 < 64 ∧
      rank_of (make_sq 5 3) = 5 ∧ file_of (make_sq 5 3) = 3) ∧
    (rank_of 43 < 8 ∧ file_of 43 < 8 ∧ make_sq (rank_of 43) (file_of 43) = 43) :=
  ⟨coordinate_round_trip.1 5 (by decide) 3 (by decide),
    coordinate_round_trip.2 43 (by decide)⟩

set_option maxRecDepth 100000 in
/-- C14: for every file `f` in `0..7` and square `s` in `0..63`,
`has(file_mask(f), s)` is true (returns 1, otherwise 0) exactly when
`file_of(s) = f`; for every rank `r` in `0..7`, `has(rank_mask(r), s)` is true
exactly when `rank_of(s) = r`; and each of these masks has exactly eight set
bits. -/
theorem file_rank_masks :
    (∀ f, f < 8 → ∀ s, s < 64 →
      has (file_mask f) s = (if file_of s = f then 1 else 0) ∧
      (has (file_mask f) s ≠ 0 ↔ file_of s = f)) ∧
    (∀ r, r < 8 → ∀ s, s < 64 →
      has (rank_mask r) s = (if rank_of s = r then 1 else 0) ∧
      (has (rank_mask r) s ≠ 0 ↔ rank_of s = r)) ∧
    (∀ f, f < 8 → popcount (file_mask f) = 8) ∧
    (∀ r, r < 8 → popcount (rank_mask r) = 8) := by
  refine ⟨?_, ?_, ?_, ?_⟩ <;> decide

/-- Worked instance of `file_rank_masks`: square 43 (rank 5, file 3) lies on
file 3 and on rank 5, and the two masks have eight bits each. -/
theorem file_rank_masks_witness :
    has (file_mask 3) 43 = (if file_of 43 = 3 then 1 else 0) ∧
    has (rank_mask 5) 43 = (if rank_of 43 = 5 then 1 else 0) ∧
    popcount (file_mask 3) = 8 ∧ popcount (rank_mask 5) = 8 :=
  ⟨(file_rank_masks.1 3 (by decide) 43 (by decide)).1,
    (file_rank_masks.2.1 5 (by decide) 43 (by decide)).1,
    file_rank_masks.2.2.1 3 (by decide), file_rank_masks.2.2.2 5 (by decide)⟩

/-! ### Occupancy query -/

theorem and_mask_ne_zero (x : Nat) {s : Nat} (hs : s < 64) :
    (x &&& ((1 <<< s) % 2 ^ 64) != 0) = x.testBit s := by
  rw [mask_eq_two_pow hs, Nat.and_two_pow]
  have hpos : 0 < 2 ^ s := Nat.pow_pos (by norm_num)
  cases hb : x.testBit s
  · simp
  · simp only [Bool.toNat_true, Nat.one_mul, bne_iff_ne, ne_eq]
    omega

/-- C15: for every position and square `s` in `0..63`, `isOccupied(pos, s)` is
true exactly when bit `s` of `allOcc` is set; when the union invariant holds it
is true exactly when some (colour, piece) pair has bit `s` set in
`bb[colour][piece]`.  The function takes the position by `const` reference and
returns only the truth value, so no field can change. -/
theorem isOccupied_spec (pos : Position) (s : Nat) (hs : s < 64) :
    isOccupied pos s = pos.allOcc.testBit s ∧
    (UnionInv pos →
      (isOccupied pos s = true ↔ ∃ c p, (pos.bb c p).testBit s = true)) := by
  have h1 : isOccupied pos s = pos.allOcc.testBit s := and_mask_ne_zero pos.allOcc hs
  refine ⟨h1, fun hU => ?_⟩
  obtain ⟨ho, ha⟩ := unionInv_bits hU
  rw [h1, ha s]
  constructor
  · rintro ⟨c, hc⟩
    obtain ⟨p, hp⟩ := (ho c s).1 hc
    exact ⟨c, p, hp⟩
  · rintro ⟨c, p, hp⟩
    exact ⟨c, (ho c s).2 ⟨p, hp⟩⟩

/-- Worked instance of `isOccupied_spec`: square 7 of `rooksPosition` is
occupied, and a white rook stands there. -/
theorem isOccupied_spec_witness :
    isOccupied rooksPosition 7 = true ∧ ∃ c p, (rooksPosition.bb c p).testBit 7 = true := by
  have h := isOccupied_spec rooksPosition 7 (by decide)
  have h7 : isOccupied rooksPosition 7 = true := h.1.trans (by decide)
  exact ⟨h7, (h.2 ⟨fun c => by cases c <;> decide, by decide⟩).1 h7⟩

/-! ### Repeating a mutator with the same arguments -/

/-- C16 (as stated, refuted): `addPiece` and `removePiece` do not toggle.  On
the empty position two calls `addPiece(WHITE, ROOK, 0)` leave
`bb[WHITE][ROOK] = 1`; on `rooksPosition` two calls
`removePiece(WHITE, ROOK, 0)` leave `bb[WHITE][ROOK] = 0b10000000` where the
original had `0b10000001`. -/
theorem add_twice_does_not_toggle :
    (addPiece sampleKeys (addPiece sampleKeys (emptyPosition WHITE) WHITE ROOK 0)
      WHITE ROOK 0).bb WHITE ROOK = 1 ∧
    (emptyPosition WHITE).bb WHITE ROOK = 0 ∧
    addPiece sampleKeys (addPiece sampleKeys (emptyPosition WHITE) WHITE ROOK 0) WHITE ROOK 0
      ≠ emptyPosition WHITE ∧
    (removePiece sampleKeys (removePiece sampleKeys rooksPosition WHITE ROOK 0)
      WHITE ROOK 0).bb WHITE ROOK = 0b10000000 ∧
    rooksPosition.bb WHITE ROOK = 0b10000001 ∧
    removePiece sampleKeys (removePiece sampleKeys rooksPosition WHITE ROOK 0) WHITE ROOK 0
      ≠ rooksPosition := by
  refine ⟨by decide, by decide, ?_, by decide, by decide, ?_⟩
  · intro h0
    have h1 := congrArg (fun q => q.bb WHITE ROOK) h0
    revert h1
    decide
  · intro h0
    have h1 := congrArg (fun q => q.bb WHITE ROOK) h0
    revert h1
    decide

/-- C16 (amended): `move_piece` applied twice with the same arguments restores
every field of the position.  `addPiece` applied twice with the same arguments
restores `zobrist` and leaves every mask as after the first call, and so does
`removePiece`. -/
theorem twice_same_arguments (ZKEY : KeyTable) (pos : Position) (c : Colour) (p : Piece)
    (a b : Nat) (_ha : a < 64) (_hb : b < 64) :
    move_piece ZKEY (move_piece ZKEY pos c p a b) c p a b = pos ∧
    addPiece ZKEY (addPiece ZKEY pos c p a) c p a
      = { addPiece ZKEY pos c p a with zobrist := pos.zobrist } ∧
    removePiece ZKEY (removePiece ZKEY pos c p a) c p a
      = { removePiece ZKEY pos c p a with zobrist := pos.zobrist } := by
  refine ⟨?_, ?_, ?_⟩
  · apply Position.eq_of_fields
    · intro c' p'
      simp only [move_piece]
      by_cases h : c' = c ∧ p' = p
      · obtain ⟨rfl, rfl⟩ := h
        simp only [and_self, if_true]
        exact xor_xor_cancel _ _
      · simp only [h, if_false]
    · intro c'
      simp only [move_piece]
      by_cases h : c' = c
      · subst h
        simp only [if_true]
        exact xor_xor_cancel _ _
      · simp only [h, if_false]
    · simp only [move_piece]
      exact xor_xor_cancel _ _
    · rfl
    · simp only [move_piece]
      exact xor_xor_cancel _ _
  · apply Position.eq_of_fields
    · intro c' p'
      simp only [addPiece]
      by_cases h : c' = c ∧ p' = p
      · obtain ⟨rfl, rfl⟩ := h
        simp only [and_self, if_true, Nat.or_assoc, Nat.or_self]
      · simp only [h, if_false]
    · intro c'
      simp only [addPiece]
      by_cases h : c' = c
      · subst h
        simp only [if_true, Nat.or_assoc, Nat.or_self]
      · simp only [h, if_false]
    · simp only [addPiece, Nat.or_assoc, Nat.or_self]
    · rfl
    · simp only [addPiece]
      exact xor_xor_cancel _ _
  · apply Position.eq_of_fields
    · intro c' p'
      simp only [removePiece]
      by_cases h : c' = c ∧ p' = p
      · obtain ⟨rfl, rfl⟩ := h
        simp only [and_self, if_true, Nat.and_assoc, Nat.and_self]
      · simp only [h, if_false]
    · intro c'
      simp only [removePiece]
      by_cases h : c' = c
      · subst h
        simp only [if_true, Nat.and_assoc, Nat.and_self]
      · simp only [h, if_false]
    · simp only [removePiece, Nat.and_assoc, Nat.and_self]
    · rfl
    · simp only [removePiece]
      exact xor_xor_cancel _ _

/-- Worked instance of `twice_same_arguments`: moving the rook of
`rooksPosition` from 0 to 8 twice gives `rooksPosition` back. -/
theorem twice_same_arguments_witness :
    move_piece sampleKeys (move_piece sampleKeys rooksPosition WHITE ROOK 0 8) WHITE ROOK 0 8
      = rooksPosition :=
  (twice_same_arguments sampleKeys rooksPosition WHITE ROOK 0 8 (by decide) (by decide)).1

/-! ### Bounded traversal -/

theorem for_each_logged_spec {σ : Type} (f : Nat → σ → σ) : ∀ (bb : Nat), bb < 2 ^ 64 →
    ∀ (st : σ) (log : List Nat), (∀ a ∈ log, a ≠ 0) →
      (for_each_logged bb f st log).1 = for_each bb f st ∧
      ∀ a ∈ (for_each_logged bb f st log).2, a ≠ 0 := by
  intro bb
  induction bb using Nat.strong_induction_on with
  | _ bb ih =>
    intro h1 st log hlog
    rw [for_each_logged, for_each]
    by_cases h0 : bb = 0
    · rw [dif_pos h0, dif_pos h0]
      exact ⟨rfl, hlog⟩
    · rw [dif_neg h0, dif_neg h0]
      have hlt := pop_lsb_snd_lt h0 h1
      apply ih _ hlt (by omega)
      intro a ha
      rcases List.mem_append.1 ha with h | h
      · exact hlog a h
      · rw [List.mem_singleton] at h
        rw [h]
        exact h0

theorem length_setBits_le (bb : Nat) : (setBits bb).length ≤ 64 := by
  have h := List.length_filter_le (fun i => bb.testBit i) (List.range 64)
  rw [List.length_range] at h
  exact h

/-- C17: for every 64-bit mask `bb`, `for_each(bb, f)` terminates (the model
is a total function that returns the fold of `f` over the set bits), calls `f`
exactly `popcount(bb)` times, which is at most 64, and every mask on which it
invokes `pop_lsb` is non-zero. -/
theorem for_each_bounded {σ : Type} (bb : Nat) (hbb : bb < 2 ^ 64) (f : Nat → σ → σ) (st : σ) :
    for_each bb f st = (setBits bb).foldl (fun acc sq => f sq acc) st ∧
    (visited bb).length = popcount bb ∧
    for_each bb (fun _ n => n + 1) 0 = popcount bb ∧
    popcount bb ≤ 64 ∧
    (for_each_logged bb f st []).1 = for_each bb f st ∧
    (∀ a ∈ (for_each_logged bb f st []).2, a ≠ 0) := by
  have hv : visited bb = setBits bb := by
    unfold visited
    rw [for_each_eq_foldl _ bb hbb, foldl_snoc_eq, List.nil_append]
  have hcount : ∀ (l : List Nat) (n : Nat),
      l.foldl (fun acc (_ : Nat) => acc + 1) n = n + l.length := by
    intro l
    induction l with
    | nil => intro n; rfl
    | cons a l ih => intro n; rw [List.foldl_cons, ih, List.length_cons]; omega
  have hlog := for_each_logged_spec f bb hbb st [] (fun a ha => absurd ha (List.not_mem_nil a))
  refine ⟨for_each_eq_foldl f bb hbb st, ?_, ?_, ?_, hlog.1, hlog.2⟩
  · rw [hv, popcount_eq_length]
  · rw [for_each_eq_foldl _ bb hbb, hcount, popcount_eq_length, Nat.zero_add]
  · rw [popcount_eq_length]
    exact length_setBits_le bb

/-- Worked instance of `for_each_bounded`: on `0b100000100` a counting visitor
is called twice. -/
theorem for_each_bounded_witness :
    for_each 0b100000100 (fun _ n => n + 1) 0 = popcount 0b100000100 ∧
    popcount 0b100000100 = 2 :=
  ⟨(for_each_bounded 0b100000100 (by norm_num) (fun _ n => n + 1) 0).2.2.1, by decide⟩

/-! ### Removing an absent piece -/

/-- C19 (as stated, refuted): removing a piece that is absent from a wholly
empty square leaves every mask as it was, so the union invariant still holds.
On the empty position `removePiece(WHITE, PAWN, 0)` changes only `zobrist`. -/
theorem remove_absent_on_empty_square_keeps_union :
    UnionInv (emptyPosition WHITE) ∧
    ((emptyPosition WHITE).bb WHITE PAWN).testBit 0 = false ∧
    UnionInv (removePiece sampleKeys (emptyPosition WHITE) WHITE PAWN 0) ∧
    (removePiece sampleKeys (emptyPosition WHITE) WHITE PAWN 0).zobrist = 1 := by
  refine ⟨⟨fun c => ?_, by decide⟩, by decide, ⟨fun c => ?_, by decide⟩, by decide⟩
  · cases c <;> decide
  · cases c <;> decide

/-- C19 (amended): on a position satisfying the union invariant, if bit `s`
is clear in `bb[c][p]` while some other piece stands on `s` (bit `s` set in
`allOcc`), the position produced by `removePiece(pos, c, p, s)` no longer
satisfies the union invariant. -/
theorem remove_absent_desync (ZKEY : KeyTable) (pos : Position) (c : Colour) (p : Piece)
    (s : Nat) (hs : s < 64) (hU : UnionInv pos) (hclear : (pos.bb c p).testBit s = false)
    (hall : pos.allOcc.testBit s = true) :
    ¬ UnionInv (removePiece ZKEY pos c p s) := by
  intro hU'
  obtain ⟨ho, ha⟩ := unionInv_bits hU
  obtain ⟨ho', ha'⟩ := unionInv_bits hU'
  obtain ⟨c₂, hc₂⟩ := (ha s).1 hall
  obtain ⟨p₂, hp₂⟩ := (ho c₂ s).1 hc₂
  have hne : ¬ (c₂ = c ∧ p₂ = p) := by
    rintro ⟨rfl, rfl⟩
    rw [hclear] at hp₂
    cases hp₂
  have hkeep : (removePiece ZKEY pos c p s).bb c₂ p₂ = pos.bb c₂ p₂ := by
    simp only [removePiece, hne, if_false]
  have h1 : (removePiece ZKEY pos c p s).allOcc.testBit s = true :=
    (ha' s).2 ⟨c₂, (ho' c₂ s).2 ⟨p₂, by rw [hkeep]; exact hp₂⟩⟩
  have h2 : (removePiece ZKEY pos c p s).allOcc.testBit s = false := by
    simp only [removePiece, mask_eq_two_pow hs]
    rw [Nat.testBit_and, testBit_not64_two_pow hs]
    simp
  rw [h2] at h1
  cases h1

/-- Worked instance of `remove_absent_desync`: removing an absent white pawn
from square 7 of `rooksPosition`, where the rook stands. -/
theorem remove_absent_desync_witness :
    ¬ UnionInv (removePiece sampleKeys rooksPosition WHITE PAWN 7) :=
  remove_absent_desync sampleKeys rooksPosition WHITE PAWN 7 (by decide)
    ⟨fun c => by cases c <;> decide, by decide⟩ (by decide) (by decide)

/-! ### Relocation as removal followed by placement -/

/-- C20: on a 64-bit position satisfying the union invariant, with bit `src`
set in `bb[c][p]` and bit `dst` clear in `allOcc`, `move_piece(c, p, src, dst)`
yields exactly the position produced by `removePiece(c, p, src)` followed by
`addPiece(c, p, dst)`, in every field including `zobrist`.  (The equality needs
no assumption about other pieces on `src`.) -/
theorem move_piece_eq_remove_add (ZKEY : KeyTable) (pos : Position) (c : Colour) (p : Piece)
    (src dst : Nat) (hsrc : src < 64) (hdst : dst < 64) (hF : fits64 pos) (hU : UnionInv pos)
    (hfrom : (pos.bb c p).testBit src = true) (hto : pos.allOcc.testBit dst = false) :
    move_piece ZKEY pos c p src dst
      = addPiece ZKEY (removePiece ZKEY pos c p src) c p dst := by
  obtain ⟨ho, ha⟩ := unionInv_bits hU
  have socc : (pos.occ c).testBit src = true := (ho c src).2 ⟨p, hfrom⟩
  have sall : pos.allOcc.testBit src = true := (ha src).2 ⟨c, socc⟩
  have docc : (pos.occ c).testBit dst = false := by
    cases hc : (pos.occ c).testBit dst
    · rfl
    · rw [(ha dst).2 ⟨c, hc⟩] at hto
      cases hto
  have dbb : (pos.bb c p).testBit dst = false := by
    cases hc : (pos.bb c p).testBit dst
    · rfl
    · rw [(ho c dst).2 ⟨p, hc⟩] at docc
      cases docc
  have hne : src ≠ dst := by
    intro e
    rw [e, hto] at sall
    cases sall
  have key : ∀ x : Nat, x < 2 ^ 64 → x.testBit src = true → x.testBit dst = false →
      x ^^^ (2 ^ src ||| 2 ^ dst) = (x &&& not64 (2 ^ src)) ||| 2 ^ dst := by
    intro x h64 h1 h2
    have h3 : (x ^^^ 2 ^ src).testBit dst = false := by
      rw [Nat.testBit_xor, h2, Nat.testBit_two_pow]
      simp [hne]
    rw [xor_pair_eq hne, and_not64_eq_xor_of_set hsrc h64 h1, or_eq_xor_of_clear h3]
  apply Position.eq_of_fields
  · intro c' p'
    simp only [move_piece, addPiece, removePiece, sq_bb_eq_two_pow hsrc, sq_bb_eq_two_pow hdst,
      mask_eq_two_pow hsrc, mask_eq_two_pow hdst]
    by_cases h : c' = c ∧ p' = p
    · simp only [h, and_self, if_true]
      exact key _ (hF.1 c p) hfrom dbb
    · simp only [h, if_false]
  · intro c'
    simp only [move_piece, addPiece, removePiece, sq_bb_eq_two_pow hsrc, sq_bb_eq_two_pow hdst,
      mask_eq_two_pow hsrc, mask_eq_two_pow hdst]
    by_cases h : c' = c
    · simp only [h, if_true]
      exact key _ (hF.2.1 c) socc docc
    · simp only [h, if_false]
  · simp only [move_piece, addPiece, removePiece, sq_bb_eq_two_pow hsrc, sq_bb_eq_two_pow hdst,
      mask_eq_two_pow hsrc, mask_eq_two_pow hdst]
    exact key _ hF.2.2 sall hto
  · rfl
  · simp only [move_piece, addPiece, removePiece, Nat.xor_assoc]

/-- Worked instance of `move_piece_eq_remove_add`: the rook of `rooksPosition`
relocated from square 0 to square 8. -/
theorem move_piece_eq_remove_add_witness :
    move_piece sampleKeys rooksPosition WHITE ROOK 0 8
      = addPiece sampleKeys (removePiece sampleKeys rooksPosition WHITE ROOK 0) WHITE ROOK 8 :=
  move_piece_eq_remove_add sampleKeys rooksPosition WHITE ROOK 0 8 (by decide) (by decide)
    ⟨fun c p => by cases c <;> cases p <;> decide, fun c => by cases c <;> decide, by decide⟩
    ⟨fun c => by cases c <;> decide, by decide⟩ (by decide) (by decide)

/-! ### Capture: remove the captured piece, then move -/

theorem toggle_bb_testBit (ZKEY : KeyTable) (pos : Position) (c : Colour) (p : Piece) (s : Nat)
    (c₁ : Colour) (p₁ : Piece) (i : Nat) :
    ((toggleSquare ZKEY pos c p s).bb c₁ p₁).testBit i
      = if c₁ = c ∧ p₁ = p then ((pos.bb c p).testBit i ^^ decide (s = i))
        else (pos.bb c₁ p₁).testBit i := by
  simp only [toggleSquare]
  by_cases h : c₁ = c ∧ p₁ = p
  · simp only [h, and_self, if_true, Nat.testBit_xor, Nat.testBit_two_pow]
  · simp only [h, if_false]

theorem reachable_capturePosition : Reachable sampleKeys capturePosition :=
  Reachable.add BLACK KNIGHT 8
    (Reachable.add WHITE ROOK 0 (Reachable.empty WHITE) (by decide)
      (fun c p => by cases c <;> cases p <;> decide))
    (by decide) (fun c p => by cases c <;> cases p <;> decide)

/-- C18: on a 64-bit position satisfying the union, disjointness and
hash-consistency invariants, with piece `(c, p)` on square `src` and an
opposing piece `(c', p')`, `c' ≠ c`, on square `dst`,
`removePiece(c', p', dst)` followed by `move_piece(c, p, src, dst)` yields a
position that again satisfies the three invariants, in which `(c, p)` is the
only piece on `dst`, no piece stands on `src`, and every other square is as
before. -/
theorem capture_protocol (ZKEY : KeyTable) (pos : Position) (c : Colour) (p : Piece)
    (c' : Colour) (p' : Piece) (src dst : Nat) (hsrc : src < 64) (hdst : dst < 64)
    (hF : fits64 pos) (hU : UnionInv pos) (hD : DisjointInv pos)
    (hH : pos.zobrist = hashOf ZKEY pos)
    (hp : (pos.bb c p).testBit src = true) (hq : (pos.bb c' p').testBit dst = true)
    (hne : c' ≠ c) :
    UnionInv (move_piece ZKEY (removePiece ZKEY pos c' p' dst) c p src dst) ∧
    DisjointInv (move_piece ZKEY (removePiece ZKEY pos c' p' dst) c p src dst) ∧
    (move_piece ZKEY (removePiece ZKEY pos c' p' dst) c p src dst).zobrist
      = hashOf ZKEY (move_piece ZKEY (removePiece ZKEY pos c' p' dst) c p src dst) ∧
    (∀ c₁ p₁,
      ((move_piece ZKEY (removePiece ZKEY pos c' p' dst) c p src dst).bb c₁ p₁).testBit dst = true
        ↔ (c₁ = c ∧ p₁ = p)) ∧
    (∀ c₁ p₁,
      ((move_piece ZKEY (removePiece ZKEY pos c' p' dst) c p src dst).bb c₁ p₁).testBit src
        = false) ∧
    (∀ i, i ≠ src → i ≠ dst → ∀ c₁ p₁,
      ((move_piece ZKEY (removePiece ZKEY pos c' p' dst) c p src dst).bb c₁ p₁).testBit i
        = (pos.bb c₁ p₁).testBit i) := by
  have hC : Consistent ZKEY pos := ⟨hF, hU, hD, hH⟩
  have hsd : src ≠ dst := by
    intro e
    subst e
    exact hne (hD _ _ _ _ _ hq hp).1
  have hC1 := consistent_removePiece hC c' p' hdst hq
  obtain ⟨ho, ha⟩ := unionInv_bits hU
  have qocc : (pos.occ c').testBit dst = true := (ho c' dst).2 ⟨p', hq⟩
  have e1 : removePiece ZKEY pos c' p' dst = toggleSquare ZKEY pos c' p' dst :=
    removePiece_eq_toggle ZKEY pos c' p' hdst hF hq qocc ((ha dst).2 ⟨c', qocc⟩)
  have b1 : ∀ c₁ p₁ i, ((removePiece ZKEY pos c' p' dst).bb c₁ p₁).testBit i
      = if c₁ = c' ∧ p₁ = p' then ((pos.bb c' p').testBit i ^^ decide (dst = i))
        else (pos.bb c₁ p₁).testBit i := by
    intro c₁ p₁ i
    rw [e1]
    exact toggle_bb_testBit ZKEY pos c' p' dst c₁ p₁ i
  have hcc : ¬ (c = c' ∧ p = p') := fun h => hne h.1.symm
  have hp1 : ((removePiece ZKEY pos c' p' dst).bb c p).testBit src = true := by
    rw [b1, if_neg hcc]
    exact hp
  have he1 : whollyEmpty (removePiece ZKEY pos c' p' dst) dst := by
    intro c₁ p₁
    rw [b1]
    by_cases h : c₁ = c' ∧ p₁ = p'
    · rw [if_pos h, hq]
      simp
    · rw [if_neg h]
      cases hb : (pos.bb c₁ p₁).testBit dst
      · rfl
      · exact absurd (hD _ _ _ _ _ hb hq) h
  have hC2 := consistent_move_piece hC1 c p hsrc hdst hp1 he1
  have b2 : ∀ c₁ p₁ i,
      ((move_piece ZKEY (removePiece ZKEY pos c' p' dst) c p src dst).bb c₁ p₁).testBit i
      = if c₁ = c ∧ p₁ = p then
          ((((removePiece ZKEY pos c' p' dst).bb c p).testBit i ^^ decide (src = i))
            ^^ decide (dst = i))
        else ((removePiece ZKEY pos c' p' dst).bb c₁ p₁).testBit i := by
    intro c₁ p₁ i
    rw [move_piece_eq_toggle ZKEY _ c p hsrc hdst hsd, toggle_bb_testBit, toggle_bb_testBit,
      toggle_bb_testBit]
    by_cases h : c₁ = c ∧ p₁ = p
    · simp only [h, and_self, if_true]
    · simp only [h, if_false]
  refine ⟨hC2.2.1, hC2.2.2.1, hC2.2.2.2, ?_, ?_, ?_⟩
  · intro c₁ p₁
    rw [b2]
    by_cases h : c₁ = c ∧ p₁ = p
    · rw [if_pos h, he1 c p]
      simp [hsd, h]
    · rw [if_neg h, he1 c₁ p₁]
      simp [h]
  · intro c₁ p₁
    rw [b2]
    by_cases h : c₁ = c ∧ p₁ = p
    · rw [if_pos h, hp1]
      simp [hsd.symm]
    · rw [if_neg h]
      cases hb : ((removePiece ZKEY pos c' p' dst).bb c₁ p₁).testBit src
      · rfl
      · exact absurd (hC1.2.2.1 _ _ _ _ _ hb hp1) h
  · intro i h1 h2 c₁ p₁
    have h1' : ¬ src = i := fun e => h1 e.symm
    have h2' : ¬ dst = i := fun e => h2 e.symm
    rw [b2, b1, b1]
    by_cases h : c₁ = c ∧ p₁ = p
    · obtain ⟨rfl, rfl⟩ := h
      simp [hcc, h1', h2']
    · by_cases hh : c₁ = c' ∧ p₁ = p'
      · obtain ⟨rfl, rfl⟩ := hh
        simp [h, h2']
      · simp [h, hh]

/-- Worked instance of `capture_protocol`: in `capturePosition` the white rook
on square 0 captures the black knight on square 8. -/
theorem capture_protocol_witness :
    UnionInv (move_piece sampleKeys (removePiece sampleKeys capturePosition BLACK KNIGHT 8)
      WHITE ROOK 0 8) ∧
    (∀ c₁ p₁, ((move_piece sampleKeys (removePiece sampleKeys capturePosition BLACK KNIGHT 8)
      WHITE ROOK 0 8).bb c₁ p₁).testBit 8 = true ↔ (c₁ = WHITE ∧ p₁ = ROOK)) := by
  have hC := reachable_consistent reachable_capturePosition
  have h := capture_protocol sampleKeys capturePosition WHITE ROOK BLACK KNIGHT 0 8
    (by decide) (by decide) hC.1 hC.2.1 hC.2.2.1 hC.2.2.2 (by decide) (by decide) (by decide)
  exact ⟨h.1, h.2.2.2.1⟩

end Board
